import Mathlib

/-!
Shallow embedding of the dependency-graph engine (`src/dependency_graph.py`,
class `DependencyGraph`) and of the task-lifecycle completion step
(`src/tm_production.py`, `TaskManager.complete`) of the task-orchestrator
repository, together with proofs settling the frozen claims about them.

Modelling conventions:
* Python `set`/`dict` values are modelled as total functions with a default
  (`defaultdict(set)` becomes `String → List String` defaulting to `[]`,
  `dict.get(k, d)` becomes an `Option`-valued function read with `getD`);
  list values of the sets are kept duplicate-free by `List.insert`, which is
  a no-op exactly when the element is present, like `set.add`.
* Python `float` weights are modelled as rationals `ℚ`.
* `while` loops and recursion are modelled with an explicit fuel parameter;
  the fuel chosen is proved sufficient for all well-formed graphs, so the
  out-of-fuel branches are unreachable there.
* Python truthiness tests on lists / optionals / strings (`if cycle:`,
  `if not topo_order:`, `if not end_node:`) are modelled faithfully:
  `None`, the empty list and the empty string are falsy.
-/

namespace TaskOrch

/-- Embedding of `DependencyGraph.__init__`: node set, forward adjacency
(`node -> set of dependencies`), reverse adjacency (`node -> set of
dependents`) and per-node weights. -/
structure DependencyGraph where
  nodes : List String
  edges : String → List String
  reverse_edges : String → List String
  weights : String → Option ℚ

/-- The empty graph produced by the constructor. -/
def DependencyGraph.empty : DependencyGraph :=
  ⟨[], fun _ => [], fun _ => [], fun _ => none⟩

/-- Embedding of `DependencyGraph.add_node`. -/
def add_node (g : DependencyGraph) (node_id : String) (weight : ℚ) : DependencyGraph :=
  { g with nodes := g.nodes.insert node_id
         , weights := fun n => if n = node_id then some weight else g.weights n }

/-- Embedding of `DependencyGraph.add_edge`: auto-creates missing endpoints
with the default weight 1.0, then records the edge in both adjacency maps. -/
def add_edge (g : DependencyGraph) (from_node to_node : String) : DependencyGraph :=
  let g1 := if from_node ∈ g.nodes then g else add_node g from_node 1
  let g2 := if to_node ∈ g1.nodes then g1 else add_node g1 to_node 1
  { g2 with
      edges := fun n => if n = from_node then (g2.edges n).insert to_node else g2.edges n
    , reverse_edges := fun n =>
        if n = to_node then (g2.reverse_edges n).insert from_node else g2.reverse_edges n }

/-- Embedding of `DependencyGraph.remove_edge` (`set.discard` on both maps). -/
def remove_edge (g : DependencyGraph) (from_node to_node : String) : DependencyGraph :=
  { g with
      edges := fun n => if n = from_node then (g.edges n).erase to_node else g.edges n
    , reverse_edges := fun n =>
        if n = to_node then (g.reverse_edges n).erase from_node else g.reverse_edges n }

/-! ### Topological sort (Kahn's algorithm), `DependencyGraph.topological_sort` -/

/-- Body of the inner `for dependent in self.reverse_edges[node]` loop of
`topological_sort`: decrement the in-degree of each dependent and enqueue the
ones that reach zero. -/
def kahnStep (indeg : String → Int) (queue : List String) (dependents : List String) :
    (String → Int) × List String :=
  dependents.foldl
    (fun (p : (String → Int) × List String) (d : String) =>
      let v := p.1 d - 1
      ((fun n => if n = d then v else p.1 n), if v = 0 then p.2 ++ [d] else p.2))
    (indeg, queue)

/-- The `while queue:` loop of `topological_sort`.  `none` marks fuel
exhaustion, which is unreachable for well-formed graphs with the fuel used in
`topological_sort`. -/
def kahnLoop (reverse_edges : String → List String) :
    Nat → List String → (String → Int) → List String → Option (List String)
  | _, [], _, result => some result
  | 0, _ :: _, _, _ => none
  | fuel+1, node :: queue, indeg, result =>
    let p := kahnStep indeg queue (reverse_edges node)
    kahnLoop reverse_edges fuel p.2 p.1 (result ++ [node])

/-- Embedding of `DependencyGraph.topological_sort`: in-degrees are the
dependency counts, the queue is seeded with the zero-in-degree nodes, and the
sort fails (returns `none`) when not all nodes were processed. -/
def topological_sort (g : DependencyGraph) : Option (List String) :=
  let indeg : String → Int := fun n => ((g.edges n).length : Int)
  let queue := g.nodes.filter (fun n => (g.edges n).length = 0)
  match kahnLoop g.reverse_edges (g.nodes.length + 1) queue indeg [] with
  | none => none
  | some result => if result.length = g.nodes.length then some result else none

/-! ### Cycle detection (three-colour DFS), `DependencyGraph.detect_cycle` -/

/-- The mutable visit-state of the DFS: `state` is 0 = unvisited, 1 =
visiting, 2 = visited; `parent` records who discovered each node. -/
structure DfsState where
  state : String → Nat
  parent : String → Option String

/-- The `while current in parent and parent[current] != neighbor` loop that
traces the cycle path back through the parents. -/
def traceBack (parent : String → Option String) (neighbor : String) :
    Nat → String → List String → List String
  | 0, _, acc => acc
  | fuel+1, current, acc =>
    match parent current with
    | none => acc
    | some p => if p = neighbor then acc else traceBack parent neighbor fuel p (acc ++ [p])

/-- Cycle-path reconstruction of `detect_cycle` (the `cycle_path` built when a
visiting neighbour is re-encountered, ending with `cycle_path.reverse()`). -/
def buildCycle (parent : String → Option String) (node neighbor : String) (fuel : Nat) :
    List String :=
  (traceBack parent neighbor fuel node [neighbor, node]).reverse

/-- Result of one `dfs` call: `exhausted` marks fuel exhaustion (unreachable
for well-formed graphs), `found` carries the reconstructed cycle path, and
`clean` carries the updated colouring when no cycle was found. -/
inductive DfsRes where
  | exhausted
  | found (path : List String)
  | clean (st : DfsState)

/-- One step of the `for neighbor in self.edges[node]` loop of the `dfs`
helper: once a cycle was found (or fuel ran out) the remaining neighbours are
skipped, modelling the early `return True`; a visiting neighbour yields the
cycle path, an unvisited one is visited recursively after recording its
parent. -/
def dfsStep (visit : String → DfsState → DfsRes) (node : String) (tfuel : Nat)
    (acc : DfsRes) (neighbor : String) : DfsRes :=
  match acc with
  | .exhausted => .exhausted
  | .found path => .found path
  | .clean st2 =>
    if st2.state neighbor = 1 then
      .found (buildCycle st2.parent node neighbor tfuel)
    else if st2.state neighbor = 0 then
      visit neighbor
        { st2 with parent := fun n => if n = neighbor then some node else st2.parent n }
    else .clean st2

/-- Embedding of the recursive `dfs` helper of `detect_cycle`: mark the node
visiting, scan its dependencies (returning early once a cycle is found), then
mark it visited. -/
def dfsVisit (edges : String → List String) : Nat → String → DfsState → DfsRes
  | 0, _, _ => .exhausted
  | fuel+1, node, st =>
    let st1 : DfsState := { st with state := fun n => if n = node then 1 else st.state n }
    match (edges node).foldl (dfsStep (dfsVisit edges fuel) node (fuel+1)) (.clean st1) with
    | .clean st2 => .clean { st2 with state := fun n => if n = node then 2 else st2.state n }
    | other => other

/-- The `for node in self.nodes: if state[node] == 0: dfs(node)` driver loop
of `detect_cycle`. -/
def detectLoop (edges : String → List String) (fuel : Nat) :
    List String → DfsState → Option (List String)
  | [], _ => none
  | node :: rest, st =>
    if st.state node = 0 then
      match dfsVisit edges fuel node st with
      | .found path => some path
      | .clean st2 => detectLoop edges fuel rest st2
      | .exhausted => none
    else detectLoop edges fuel rest st

/-- Embedding of `DependencyGraph.detect_cycle`. -/
def detect_cycle (g : DependencyGraph) : Option (List String) :=
  detectLoop g.edges (g.nodes.length + 1) g.nodes ⟨fun _ => 0, fun _ => none⟩

/-! ### Edge validation, `DependencyGraph.validate_new_edge` -/

/-- The self-dependency rejection message of `validate_new_edge`. -/
def selfDepMsg (node : String) : String :=
  "Self-dependency detected: " ++ node ++ " cannot depend on itself"

/-- The circular-dependency rejection message of `validate_new_edge`. -/
def cycleMsg (cycle : List String) : String :=
  "Circular dependency detected: " ++ String.intercalate " → " cycle

/-- Embedding of `DependencyGraph.validate_new_edge`.  The Python method
mutates `self`; here the (tentatively modified, then restored) graph is
returned alongside the `(is_valid, error_message)` verdict.  The
`some (_ :: _)` pattern models the Python truthiness test `if cycle:`
(`None` and the empty list are both falsy). -/
def validate_new_edge (g : DependencyGraph) (from_node to_node : String) :
    (Bool × Option String) × DependencyGraph :=
  if from_node = to_node then ((false, some (selfDepMsg from_node)), g)
  else
    let g1 := add_edge g from_node to_node
    let cycle := detect_cycle g1
    let g2 := remove_edge g1 from_node to_node
    match cycle with
    | some (c :: cs) => ((false, some (cycleMsg (c :: cs))), g2)
    | _ => ((true, none), g2)

/-! ### Transitive closure, `DependencyGraph.get_all_dependencies` -/

/-- The `while stack:` worklist loop of `get_all_dependencies`; Python's
`stack.pop()` removes the last element and `stack.extend` appends. -/
def reachLoop (edges : String → List String) : Nat → List String → List String → List String
  | 0, _, result => result
  | fuel+1, stack, result =>
    match stack.getLast? with
    | none => result
    | some current =>
      let stack1 := stack.dropLast
      if current ∈ result then reachLoop edges fuel stack1 result
      else reachLoop edges fuel (stack1 ++ edges current) (result.insert current)

/-- Embedding of `DependencyGraph.get_all_dependencies` (iterative transitive
closure of the dependency relation). -/
def get_all_dependencies (g : DependencyGraph) (node_id : String) : List String :=
  let fuel := (g.edges node_id).length + (g.nodes.map (fun x => (g.edges x).length)).sum + 1
  reachLoop g.edges fuel (g.edges node_id) []

/-! ### Critical path, `DependencyGraph.find_critical_path` -/

/-- Weight lookup `self.weights.get(node, 1.0)`. -/
def weightOf (g : DependencyGraph) (n : String) : ℚ := (g.weights n).getD 1

/-- The inner `for dependent in self.reverse_edges[node]` relaxation loop of
`find_critical_path`, threading the `distance` and `predecessor` maps. -/
def relaxDependents (reverse_edges : String → List String) (w : String → ℚ) (node : String)
    (dp : (String → ℚ) × (String → Option String)) :
    (String → ℚ) × (String → Option String) :=
  (reverse_edges node).foldl
    (fun (p : (String → ℚ) × (String → Option String)) (dependent : String) =>
      let new_distance := p.1 node + w node
      if new_distance > p.1 dependent then
        ((fun n => if n = dependent then new_distance else p.1 n),
         (fun n => if n = dependent then some node else p.2 n))
      else p)
    dp

/-- The outer `for node in topo_order` loop of `find_critical_path`. -/
def relaxAll (reverse_edges : String → List String) (w : String → ℚ) (topo : List String)
    (dp : (String → ℚ) × (String → Option String)) :
    (String → ℚ) × (String → Option String) :=
  topo.foldl (fun dp node => relaxDependents reverse_edges w node dp) dp

/-- The `for node in self.nodes` maximum-selection loop of
`find_critical_path`, returning `(max_distance, end_node)`. -/
def pickEnd (dist : String → ℚ) (w : String → ℚ) (nodes : List String) : ℚ × Option String :=
  nodes.foldl
    (fun (p : ℚ × Option String) (node : String) =>
      let node_distance := dist node + w node
      if node_distance > p.1 then (node_distance, some node) else p)
    (0, none)

/-- The `while current is not None` path-reconstruction loop of
`find_critical_path` (before the final `path.reverse()`). -/
def buildPath (predecessor : String → Option String) : Nat → String → List String → List String
  | 0, _, path => path
  | fuel+1, current, path =>
    let path1 := path ++ [current]
    match predecessor current with
    | none => path1
    | some p => buildPath predecessor fuel p path1

/-- Embedding of `DependencyGraph.find_critical_path`.  The `some []` and
`some ""` fall-through branches model Python's truthiness tests
`if not topo_order:` and `if not end_node:` (the empty list and the empty
string are falsy). -/
def find_critical_path (g : DependencyGraph) : List String × ℚ :=
  match detect_cycle g with
  | some (_ :: _) => ([], 0)
  | _ =>
    match topological_sort g with
    | none => ([], 0)
    | some [] => ([], 0)
    | some (t :: topo_rest) =>
      let dp := relaxAll g.reverse_edges (weightOf g) (t :: topo_rest)
        ((fun _ => (0 : ℚ)), (fun _ => (none : Option String)))
      let me := pickEnd dp.1 (weightOf g) g.nodes
      match me.2 with
      | none => ([], 0)
      | some end_node =>
        if end_node = "" then ([], 0)
        else ((buildPath dp.2 (g.nodes.length + 1) end_node []).reverse, me.1)

/-! ### Task lifecycle: `TaskManager.complete`

The SQLite tables relevant to the unblock logic are modelled as lists:
`tasks` rows as `(id, status)` pairs and `dependencies` rows as
`(task_id, depends_on)` pairs (the primary keys make both duplicate-free in
reachable stores).  Notifications keep only `(task_id, type)`. -/

structure TaskStore where
  tasks : List (String × String)
  deps : List (String × String)
  notifications : List (String × String)

/-- Status lookup by task id (SQL row lookup `WHERE id = ?`). -/
def lookupStatus (tasks : List (String × String)) (id : String) : Option String :=
  (tasks.find? (fun p => p.1 = id)).map (fun p => p.2)

/-- The `UPDATE tasks SET status = 'completed' WHERE id = ?` statement. -/
def setCompleted (tasks : List (String × String)) (task_id : String) :
    List (String × String) :=
  tasks.map (fun p => if p.1 = task_id then (p.1, "completed") else p)

/-- The `NOT EXISTS (SELECT 1 FROM dependencies d2 JOIN tasks t2 ON
d2.depends_on = t2.id WHERE d2.task_id = t AND d2.depends_on != X AND
t2.status != 'completed')` subquery of `TaskManager.complete`.  Note that the
inner join drops dependency rows whose `depends_on` id has no task row. -/
def noOtherIncompleteDep (tasks deps : List (String × String)) (t X : String) : Bool :=
  !(deps.any (fun d2 =>
    d2.1 == t && d2.2 != X &&
      (match lookupStatus tasks d2.2 with
       | some st => st != "completed"
       | none => false)))

/-- Embedding of the database effect of `TaskManager.complete(task_id)`:
mark the task completed, compute the unblocked dependents, flip them to
pending, and append one `unblocked` notification per returned row. -/
def complete (s : TaskStore) (task_id : String) : TaskStore :=
  let tasks1 := setCompleted s.tasks task_id
  let unblocked := (s.deps.filter (fun d =>
      d.2 == task_id
      && (match lookupStatus tasks1 d.1 with
          | some st => st == "blocked"
          | none => false)
      && noOtherIncompleteDep tasks1 s.deps d.1 task_id)).map (fun d => d.1)
  let tasks2 := tasks1.map (fun p =>
      if p.2 == "blocked"
         && s.deps.any (fun d => d.1 == p.1 && d.2 == task_id
              && noOtherIncompleteDep tasks1 s.deps d.1 task_id)
      then (p.1, "pending") else p)
  { tasks := tasks2
  , deps := s.deps
  , notifications := s.notifications ++ unblocked.map (fun t => (t, "unblocked")) }

/-! ### Mathematical layer: edges, reachability, paths -/

/-- `Edge g a b` holds when `a` depends on `b` (directed edge `a → b` of the
forward adjacency). -/
def Edge (g : DependencyGraph) (a b : String) : Prop := b ∈ g.edges a

instance (g : DependencyGraph) (a b : String) : Decidable (Edge g a b) :=
  inferInstanceAs (Decidable (b ∈ g.edges a))

/-- Reachability along one or more dependency edges. -/
abbrev Reaches (g : DependencyGraph) : String → String → Prop :=
  Relation.TransGen (Edge g)

/-- The graph contains no directed cycle. -/
def Acyclic (g : DependencyGraph) : Prop := ∀ n, ¬ Reaches g n n

/-- A directed dependency path in execution order: every element is a node of
the graph and each element is depended on by the next one. -/
def IsDepPath (g : DependencyGraph) (p : List String) : Prop :=
  List.Chain' (fun a b => Edge g b a) p ∧ ∀ x ∈ p, x ∈ g.nodes

/-- The node-weight sum of a path. -/
def sumW (g : DependencyGraph) (p : List String) : ℚ := (p.map (weightOf g)).sum

/-- Well-formedness: the invariant the Python class maintains through its
public interface — duplicate-free node set and adjacency sets, forward and
reverse adjacency mutually inverse, and all edge endpoints registered as
nodes. -/
def WF (g : DependencyGraph) : Prop :=
  g.nodes.Nodup ∧
  (∀ a, (g.edges a).Nodup) ∧
  (∀ a, (g.reverse_edges a).Nodup) ∧
  (∀ a b, b ∈ g.edges a ↔ a ∈ g.reverse_edges b) ∧
  (∀ a b, b ∈ g.edges a → a ∈ g.nodes ∧ b ∈ g.nodes)

/-! ### Basic lemmas about the graph-store operations -/

theorem erase_insert_of_not_mem {l : List String} {a : String} (h : a ∉ l) :
    (l.insert a).erase a = l := by
  rw [List.insert_of_not_mem h, List.erase_cons_head]

theorem add_node_nodes_mem (g : DependencyGraph) (n x : String) (w : ℚ) :
    x ∈ (add_node g n w).nodes ↔ x = n ∨ x ∈ g.nodes := by
  simp [add_node, List.mem_insert_iff]

theorem ensure_node_edges (h : DependencyGraph) (n : String) :
    (if n ∈ h.nodes then h else add_node h n 1).edges = h.edges := by
  split <;> rfl

theorem ensure_node_reverse (h : DependencyGraph) (n : String) :
    (if n ∈ h.nodes then h else add_node h n 1).reverse_edges = h.reverse_edges := by
  split <;> rfl

theorem ensure_node_mem (h : DependencyGraph) (n x : String) :
    (x ∈ (if n ∈ h.nodes then h else add_node h n 1).nodes) ↔ x = n ∨ x ∈ h.nodes := by
  split
  · rename_i hn
    constructor
    · exact Or.inr
    · rintro (rfl | hx)
      · exact hn
      · exact hx
  · exact add_node_nodes_mem h n x 1

theorem ensure_node_nodup (h : DependencyGraph) (n : String) (hd : h.nodes.Nodup) :
    (if n ∈ h.nodes then h else add_node h n 1).nodes.Nodup := by
  split
  · exact hd
  · exact hd.insert

theorem add_edge_edges (g : DependencyGraph) (f t x : String) :
    (add_edge g f t).edges x = if x = f then (g.edges x).insert t else g.edges x := by
  simp only [add_edge, ensure_node_edges]

theorem add_edge_reverse_edges (g : DependencyGraph) (f t x : String) :
    (add_edge g f t).reverse_edges x =
      if x = t then (g.reverse_edges x).insert f else g.reverse_edges x := by
  simp only [add_edge, ensure_node_reverse]

theorem add_edge_nodes_mem (g : DependencyGraph) (f t x : String) :
    x ∈ (add_edge g f t).nodes ↔ x = f ∨ x = t ∨ x ∈ g.nodes := by
  simp only [add_edge]
  rw [ensure_node_mem (if f ∈ g.nodes then g else add_node g f 1) t x, ensure_node_mem g f x]
  tauto

theorem add_edge_nodes_of_mem {g : DependencyGraph} {f t : String}
    (hf : f ∈ g.nodes) (ht : t ∈ g.nodes) : (add_edge g f t).nodes = g.nodes := by
  simp [add_edge, hf, ht]

theorem add_edge_weights_of_mem {g : DependencyGraph} {f t : String}
    (hf : f ∈ g.nodes) (ht : t ∈ g.nodes) : (add_edge g f t).weights = g.weights := by
  simp [add_edge, hf, ht]

theorem add_edge_nodes_nodup {g : DependencyGraph} (f t : String) (h : g.nodes.Nodup) :
    (add_edge g f t).nodes.Nodup := by
  simp only [add_edge]
  exact ensure_node_nodup _ t (ensure_node_nodup g f h)

/-- Well-formedness of the empty graph. -/
theorem WF_empty : WF DependencyGraph.empty := by
  refine ⟨List.nodup_nil, ?_, ?_, ?_, ?_⟩ <;> simp [DependencyGraph.empty]

/-- `add_node` preserves well-formedness. -/
theorem WF_add_node {g : DependencyGraph} (h : WF g) (n : String) (w : ℚ) :
    WF (add_node g n w) := by
  obtain ⟨h1, h2, h3, h4, h5⟩ := h
  refine ⟨h1.insert, h2, h3, h4, ?_⟩
  intro a b hab
  obtain ⟨ha, hb⟩ := h5 a b hab
  exact ⟨List.mem_insert_of_mem ha, List.mem_insert_of_mem hb⟩

/-- `add_edge` preserves well-formedness. -/
theorem WF_add_edge {g : DependencyGraph} (h : WF g) (f t : String) :
    WF (add_edge g f t) := by
  obtain ⟨h1, h2, h3, h4, h5⟩ := h
  refine ⟨add_edge_nodes_nodup f t h1, ?_, ?_, ?_, ?_⟩
  · intro a
    rw [add_edge_edges]
    split
    · exact (h2 a).insert
    · exact h2 a
  · intro a
    rw [add_edge_reverse_edges]
    split
    · exact (h3 a).insert
    · exact h3 a
  · intro a b
    rw [add_edge_edges, add_edge_reverse_edges]
    by_cases haf : a = f <;> by_cases hbt : b = t <;>
      simp [haf, hbt, List.mem_insert_iff, h4]
  · intro a b
    rw [add_edge_edges]
    split
    · rename_i haf
      subst haf
      rw [List.mem_insert_iff]
      rintro (rfl | hb)
      · constructor <;> rw [add_edge_nodes_mem] <;> tauto
      · obtain ⟨ha, hb'⟩ := h5 a b hb
        constructor <;> rw [add_edge_nodes_mem] <;> tauto
    · intro hb
      obtain ⟨ha, hb'⟩ := h5 a b hb
      constructor <;> rw [add_edge_nodes_mem] <;> tauto

/-- The two rejection messages of `validate_new_edge` are distinct: one starts
with the letter S, the other with the letter C. -/
theorem selfDepMsg_ne_cycleMsg (n : String) (c : List String) : selfDepMsg n ≠ cycleMsg c := by
  intro h
  have h1 := congrArg (fun s => s.data.head?) h
  simp only [selfDepMsg, cycleMsg, String.data_append] at h1
  rw [List.head?_append_of_ne_nil _ (by
        exact List.append_ne_nil_of_left_ne_nil (by decide) _),
      List.head?_append_of_ne_nil _ (by decide),
      List.head?_append_of_ne_nil _ (by decide)] at h1
  revert h1
  decide

/-- `remove_edge` preserves well-formedness. -/
theorem WF_remove_edge {g : DependencyGraph} (h : WF g) (f t : String) :
    WF (remove_edge g f t) := by
  obtain ⟨h1, h2, h3, h4, h5⟩ := h
  refine ⟨h1, ?_, ?_, ?_, ?_⟩
  · intro a
    simp only [remove_edge]
    split
    · exact (h2 a).erase t
    · exact h2 a
  · intro a
    simp only [remove_edge]
    split
    · exact (h3 a).erase f
    · exact h3 a
  · intro a b
    simp only [remove_edge]
    by_cases haf : a = f <;> by_cases hbt : b = t <;>
      simp [haf, hbt, (h2 _).mem_erase_iff, (h3 _).mem_erase_iff, h4]
  · intro a b
    simp only [remove_edge]
    split
    · intro hb
      exact h5 a b (List.mem_of_mem_erase hb)
    · intro hb
      exact h5 a b hb

/-! ### Lemmas about `validate_new_edge` -/

/-- For distinct endpoints, the graph returned by `validate_new_edge` is the
tentatively extended graph with the tentative edge removed again. -/
theorem validate_ne_snd (g : DependencyGraph) {f t : String} (hne : f ≠ t) :
    (validate_new_edge g f t).2 = remove_edge (add_edge g f t) f t := by
  simp only [validate_new_edge, if_neg hne]
  rcases detect_cycle (add_edge g f t) with _ | (_ | ⟨c, cs⟩) <;> rfl

theorem remove_edge_nodes (g : DependencyGraph) (f t : String) :
    (remove_edge g f t).nodes = g.nodes := rfl

theorem remove_edge_weights (g : DependencyGraph) (f t : String) :
    (remove_edge g f t).weights = g.weights := rfl

/-- Adding a fresh edge and removing it restores the forward adjacency. -/
theorem remove_add_edges {g : DependencyGraph} {f t : String} (hnew : t ∉ g.edges f)
    (x : String) : (remove_edge (add_edge g f t) f t).edges x = g.edges x := by
  simp only [remove_edge, add_edge_edges]
  by_cases hxf : x = f
  · subst hxf
    simp [erase_insert_of_not_mem hnew]
  · simp [hxf]

/-- Adding a fresh edge and removing it restores the reverse adjacency. -/
theorem remove_add_reverse {g : DependencyGraph} {f t : String}
    (hrev : f ∉ g.reverse_edges t) (x : String) :
    (remove_edge (add_edge g f t) f t).reverse_edges x = g.reverse_edges x := by
  simp only [remove_edge, add_edge_reverse_edges]
  by_cases hxt : x = t
  · subst hxt
    simp [erase_insert_of_not_mem hrev]
  · simp [hxt]

/-- The verdict of `validate_new_edge` only depends on the cycle check of the
tentatively extended graph. -/
theorem validate_fst_congr {g g' : DependencyGraph} {f t : String}
    (h : detect_cycle (add_edge g f t) = detect_cycle (add_edge g' f t)) :
    (validate_new_edge g f t).1 = (validate_new_edge g' f t).1 := by
  by_cases hft : f = t
  · subst hft
    simp [validate_new_edge]
  · simp only [validate_new_edge, if_neg hft]
    rw [h]
    rcases detect_cycle (add_edge g' f t) with _ | (_ | ⟨c, cs⟩) <;> rfl

/-- `detect_cycle` only reads the node list and the forward adjacency. -/
theorem detect_cycle_congr {g g' : DependencyGraph} (hn : g.nodes = g'.nodes)
    (he : g.edges = g'.edges) : detect_cycle g = detect_cycle g' := by
  unfold detect_cycle
  rw [hn, he]

/-! ### Claim C8 -/

/-- C8: for every graph and node `n`, `validate_new_edge(n, n)` is rejected
immediately with the self-dependency message and the graph is returned
untouched (the Graph Store is not modified at all in this branch); the
self-dependency message differs from every circular-dependency message. -/
theorem C8_self_dependency_rejected (g : DependencyGraph) (n : String) :
    validate_new_edge g n n = ((false, some (selfDepMsg n)), g) ∧
    ∀ c : List String, selfDepMsg n ≠ cycleMsg c := by
  refine ⟨?_, selfDepMsg_ne_cycleMsg n⟩
  simp [validate_new_edge]

/-! ### Claim C1 -/

/-- C1 counterexample: `validate_new_edge` does not restore the full graph
state.  On the empty graph, validating the edge `a → b` leaves `a` behind as
a node (the claim says the node set is unchanged); and if the edge `a → b`
already exists, validating it again removes the pre-existing edge (the claim
says the edge set is unchanged). -/
theorem C1_counterexample :
    ("a" ∈ (validate_new_edge DependencyGraph.empty "a" "b").2.nodes ∧
      "a" ∉ DependencyGraph.empty.nodes) ∧
    (validate_new_edge (add_edge DependencyGraph.empty "a" "b") "a" "b").2.edges "a" = [] ∧
    (add_edge DependencyGraph.empty "a" "b").edges "a" = ["b"] := by
  refine ⟨⟨?_, ?_⟩, ?_, ?_⟩ <;> decide

/-- C1 (amended): for a well-formed graph and an edge `(from, to)` that is not
already present, `validate_new_edge` leaves both adjacency maps exactly as
they were; if moreover both endpoints already exist as nodes, the node set
and the weights are also unchanged (otherwise missing endpoints are
auto-created and survive the call).  A second call without committing returns
the very same verdict (flag and message) and again leaves both adjacency maps
unchanged. -/
theorem C1_validate_new_edge_frame (g : DependencyGraph) (f t : String)
    (hwf : WF g) (hnew : t ∉ g.edges f) :
    (∀ x, (validate_new_edge g f t).2.edges x = g.edges x) ∧
    (∀ x, (validate_new_edge g f t).2.reverse_edges x = g.reverse_edges x) ∧
    (f ∈ g.nodes → t ∈ g.nodes →
      (validate_new_edge g f t).2.nodes = g.nodes ∧
      (validate_new_edge g f t).2.weights = g.weights) ∧
    (validate_new_edge (validate_new_edge g f t).2 f t).1 = (validate_new_edge g f t).1 ∧
    (∀ x, (validate_new_edge (validate_new_edge g f t).2 f t).2.edges x = g.edges x) ∧
    (∀ x, (validate_new_edge (validate_new_edge g f t).2 f t).2.reverse_edges x
        = g.reverse_edges x) := by
  by_cases hft : f = t
  · subst hft
    simp [validate_new_edge]
  · have hrev : f ∉ g.reverse_edges t := fun hf => hnew ((hwf.2.2.2.1 f t).mpr hf)
    have hsnd : (validate_new_edge g f t).2 = remove_edge (add_edge g f t) f t :=
      validate_ne_snd g hft
    have hE : ∀ x, (validate_new_edge g f t).2.edges x = g.edges x := by
      intro x
      rw [hsnd]
      exact remove_add_edges hnew x
    have hR : ∀ x, (validate_new_edge g f t).2.reverse_edges x = g.reverse_edges x := by
      intro x
      rw [hsnd]
      exact remove_add_reverse hrev x
    have hfmem : f ∈ (validate_new_edge g f t).2.nodes := by
      rw [hsnd, remove_edge_nodes, add_edge_nodes_mem]
      exact Or.inl rfl
    have htmem : t ∈ (validate_new_edge g f t).2.nodes := by
      rw [hsnd, remove_edge_nodes, add_edge_nodes_mem]
      exact Or.inr (Or.inl rfl)
    have hnodes2 : (add_edge (validate_new_edge g f t).2 f t).nodes = (add_edge g f t).nodes := by
      rw [add_edge_nodes_of_mem hfmem htmem, hsnd, remove_edge_nodes]
    have hedges2 : (add_edge (validate_new_edge g f t).2 f t).edges = (add_edge g f t).edges := by
      funext x
      rw [add_edge_edges, add_edge_edges, hE x]
    have hdc : detect_cycle (add_edge (validate_new_edge g f t).2 f t)
        = detect_cycle (add_edge g f t) := detect_cycle_congr hnodes2 hedges2
    have hnew2 : t ∉ (validate_new_edge g f t).2.edges f := by
      rw [hE f]
      exact hnew
    have hrev2 : f ∉ (validate_new_edge g f t).2.reverse_edges t := by
      rw [hR t]
      exact hrev
    refine ⟨hE, hR, ?_, ?_, ?_, ?_⟩
    · intro hf ht
      rw [hsnd, remove_edge_nodes, remove_edge_weights,
        add_edge_nodes_of_mem hf ht, add_edge_weights_of_mem hf ht]
      exact ⟨rfl, rfl⟩
    · exact validate_fst_congr hdc
    · intro x
      rw [validate_ne_snd _ hft, remove_add_edges hnew2 x]
      exact hE x
    · intro x
      rw [validate_ne_snd _ hft, remove_add_reverse hrev2 x]
      exact hR x

/-- Witness for C1 at a concrete graph: the chain `b → a` with the candidate
edge `(b, c)`. -/
theorem C1_validate_new_edge_frame_witness :
    (∀ x, (validate_new_edge (add_edge DependencyGraph.empty "b" "a") "b" "c").2.edges x
        = (add_edge DependencyGraph.empty "b" "a").edges x) ∧
    (∀ x, (validate_new_edge (add_edge DependencyGraph.empty "b" "a") "b" "c").2.reverse_edges x
        = (add_edge DependencyGraph.empty "b" "a").reverse_edges x) ∧
    ("b" ∈ (add_edge DependencyGraph.empty "b" "a").nodes →
      "c" ∈ (add_edge DependencyGraph.empty "b" "a").nodes →
      (validate_new_edge (add_edge DependencyGraph.empty "b" "a") "b" "c").2.nodes
          = (add_edge DependencyGraph.empty "b" "a").nodes ∧
      (validate_new_edge (add_edge DependencyGraph.empty "b" "a") "b" "c").2.weights
          = (add_edge DependencyGraph.empty "b" "a").weights) ∧
    (validate_new_edge
        (validate_new_edge (add_edge DependencyGraph.empty "b" "a") "b" "c").2 "b" "c").1
      = (validate_new_edge (add_edge DependencyGraph.empty "b" "a") "b" "c").1 ∧
    (∀ x, (validate_new_edge
        (validate_new_edge (add_edge DependencyGraph.empty "b" "a") "b" "c").2 "b" "c").2.edges x
      = (add_edge DependencyGraph.empty "b" "a").edges x) ∧
    (∀ x, (validate_new_edge
        (validate_new_edge (add_edge DependencyGraph.empty "b" "a") "b" "c").2
        "b" "c").2.reverse_edges x
      = (add_edge DependencyGraph.empty "b" "a").reverse_edges x) :=
  C1_validate_new_edge_frame (add_edge DependencyGraph.empty "b" "a") "b" "c"
    (WF_add_edge WF_empty "b" "a") (by decide)

/-! ### Correctness of the Kahn topological sort -/

theorem kahnStep_fst {dependents : List String} (hd : dependents.Nodup)
    (indeg : String → Int) (queue : List String) (n : String) :
    (kahnStep indeg queue dependents).1 n =
      if n ∈ dependents then indeg n - 1 else indeg n := by
  induction dependents generalizing indeg queue with
  | nil => simp [kahnStep]
  | cons d ds ih =>
    rw [List.nodup_cons] at hd
    have step : kahnStep indeg queue (d :: ds) =
        kahnStep (fun m => if m = d then indeg d - 1 else indeg m)
          (if indeg d - 1 = 0 then queue ++ [d] else queue) ds := rfl
    rw [step, ih hd.2]
    by_cases hnd : n = d
    · subst hnd
      simp [hd.1, List.mem_cons]
    · by_cases hns : n ∈ ds <;> simp [hnd, hns, List.mem_cons]

theorem kahnStep_snd {dependents : List String} (hd : dependents.Nodup)
    (indeg : String → Int) (queue : List String) :
    (kahnStep indeg queue dependents).2 =
      queue ++ dependents.filter (fun d => indeg d = 1) := by
  induction dependents generalizing indeg queue with
  | nil => simp [kahnStep]
  | cons d ds ih =>
    rw [List.nodup_cons] at hd
    have step : kahnStep indeg queue (d :: ds) =
        kahnStep (fun m => if m = d then indeg d - 1 else indeg m)
          (if indeg d - 1 = 0 then queue ++ [d] else queue) ds := rfl
    rw [step, ih hd.2]
    have hfil : ds.filter (fun x => decide ((if x = d then indeg d - 1 else indeg x) = 1))
        = ds.filter (fun x => decide (indeg x = 1)) := by
      apply List.filter_congr
      intro x hx
      have : x ≠ d := fun he => hd.1 (he ▸ hx)
      simp [this]
    rw [hfil]
    by_cases hz : indeg d = 1
    · have : indeg d - 1 = 0 := by omega
      simp [hz, this, List.filter_cons]
    · have : ¬(indeg d - 1 = 0) := by omega
      simp [hz, this, List.filter_cons]

/-- The loop invariant of the Kahn sort: `result ++ queue` is duplicate-free
and inside the node set, in-degrees count the dependencies not yet emitted,
queued nodes have all dependencies emitted, every node whose dependencies are
all emitted has been emitted or queued, and the emitted list respects the
dependency order. -/
structure KahnInv (g : DependencyGraph) (queue : List String) (indeg : String → Int)
    (result : List String) : Prop where
  nodup : (result ++ queue).Nodup
  subset : ∀ x ∈ result ++ queue, x ∈ g.nodes
  indeg_eq : ∀ n ∈ g.nodes,
    indeg n = (((g.edges n).filter (fun d => d ∉ result)).length : Int)
  queued : ∀ q ∈ queue, ∀ d ∈ g.edges q, d ∈ result
  covered : ∀ n ∈ g.nodes, (∀ d ∈ g.edges n, d ∈ result) → n ∈ result ∨ n ∈ queue
  ordered : ∀ i (hi : i < result.length), ∀ d ∈ g.edges (result.get ⟨i, hi⟩),
    d ∈ result.take i

theorem eq_singleton_of_all_eq {l : List String} {x : String} (hx : x ∈ l)
    (hall : ∀ y ∈ l, y = x) (hd : l.Nodup) : l = [x] := by
  cases l with
  | nil => cases hx
  | cons y t =>
    have hyx : y = x := hall y (List.mem_cons_self y t)
    subst hyx
    rw [List.nodup_cons] at hd
    cases t with
    | nil => rfl
    | cons z t2 =>
      have hz : z = y := hall z (List.mem_cons_of_mem y (List.mem_cons_self z t2))
      exact absurd (hz ▸ List.mem_cons_self z t2) hd.1

/-- One iteration of the Kahn loop preserves the invariant. -/
theorem kahn_step_inv {g : DependencyGraph} (hwf : WF g) {x : String} {qs : List String}
    {indeg : String → Int} {result : List String}
    (inv : KahnInv g (x :: qs) indeg result) :
    KahnInv g (kahnStep indeg qs (g.reverse_edges x)).2 (kahnStep indeg qs (g.reverse_edges x)).1
      (result ++ [x]) := by
  obtain ⟨hwf1, hwf2, hwf3, hwf4, hwf5⟩ := hwf
  have hrd : (g.reverse_edges x).Nodup := hwf3 x
  have K1 := kahnStep_fst hrd indeg qs
  have K2 := kahnStep_snd hrd indeg qs
  have hnodup0 := inv.nodup
  rw [List.nodup_append] at hnodup0
  obtain ⟨hndr, hndxq, hdisj⟩ := hnodup0
  rw [List.nodup_cons] at hndxq
  have hxres : x ∉ result := fun hx => hdisj hx (List.mem_cons_self x qs)
  have hxqs : x ∉ qs := hndxq.1
  have hxnodes : x ∈ g.nodes := inv.subset x (by simp)
  have hdepx : ∀ d ∈ g.edges x, d ∈ result := inv.queued x (List.mem_cons_self x qs)
  have hclosed : ∀ y ∈ result, ∀ d ∈ g.edges y, d ∈ result := by
    intro y hy d hd
    obtain ⟨⟨i, hi⟩, hg⟩ := List.mem_iff_get.mp hy
    have hord := inv.ordered i hi
    rw [hg] at hord
    exact List.take_subset i result (hord d hd)
  -- facts about the newly enqueued nodes
  have hnewly : ∀ d, d ∈ (g.reverse_edges x).filter (fun d => indeg d = 1) →
      x ∈ g.edges d ∧ d ∈ g.nodes ∧ (∀ e ∈ g.edges d, e ∈ result ++ [x]) ∧
      d ∉ result ∧ d ≠ x ∧ d ∉ qs := by
    intro d hd
    rw [List.mem_filter] at hd
    obtain ⟨hdr, hdeg⟩ := hd
    have hdeg1 : indeg d = 1 := by simpa using hdeg
    have hxd : x ∈ g.edges d := (hwf4 d x).mpr hdr
    have hdnode : d ∈ g.nodes := (hwf5 d x hxd).1
    have hF := inv.indeg_eq d hdnode
    rw [hdeg1] at hF
    have hlen : ((g.edges d).filter (fun e => e ∉ result)).length = 1 := by
      omega
    obtain ⟨y, hy⟩ := List.length_eq_one.mp hlen
    have hxF : x ∈ (g.edges d).filter (fun e => e ∉ result) := by
      rw [List.mem_filter]
      exact ⟨hxd, by simpa using hxres⟩
    have hxy : x = y := by
      rw [hy] at hxF
      simpa using hxF
    rw [← hxy] at hy
    have hUnres : ∀ e ∈ g.edges d, e ∉ result → e = x := by
      intro e he henr
      have hmem : e ∈ (g.edges d).filter (fun e => e ∉ result) := by
        rw [List.mem_filter]
        exact ⟨he, by simpa using henr⟩
      rw [hy] at hmem
      simpa using hmem
    have hdres : d ∉ result := by
      intro hdr2
      exact hxres (hclosed d hdr2 x hxd)
    have hdnex : d ≠ x := by
      intro he
      subst he
      exact hxres (hdepx d hxd)
    have hdqs : d ∉ qs := by
      intro hdq
      exact hxres (inv.queued d (List.mem_cons_of_mem x hdq) x hxd)
    refine ⟨hxd, hdnode, ?_, hdres, hdnex, hdqs⟩
    intro e he
    by_cases her : e ∈ result
    · exact List.mem_append_left _ her
    · rw [hUnres e he her]
      simp
  refine ⟨?_, ?_, ?_, ?_, ?_, ?_⟩
  · -- nodup
    rw [K2]
    have hassoc : (result ++ [x]) ++ (qs ++ (g.reverse_edges x).filter (fun d => indeg d = 1))
        = (result ++ x :: qs) ++ (g.reverse_edges x).filter (fun d => indeg d = 1) := by
      simp
    rw [hassoc, List.nodup_append]
    refine ⟨inv.nodup, hrd.filter _, ?_⟩
    intro a ha hanew
    obtain ⟨_, _, _, hares, hanex, haqs⟩ := hnewly a hanew
    rcases List.mem_append.mp ha with h | h
    · exact hares h
    · rcases List.mem_cons.mp h with h | h
      · exact hanex h
      · exact haqs h
  · -- subset
    intro a ha
    rw [K2] at ha
    rcases List.mem_append.mp ha with h | h
    · rcases List.mem_append.mp h with h | h
      · exact inv.subset a (List.mem_append_left _ h)
      · rw [List.mem_singleton] at h
        subst h
        exact hxnodes
    · rcases List.mem_append.mp h with h | h
      · exact inv.subset a (List.mem_append_right _ (List.mem_cons_of_mem x h))
      · exact (hnewly a h).2.1
  · -- indeg_eq
    intro n hn
    rw [K1]
    have hFn := inv.indeg_eq n hn
    by_cases hnr : n ∈ g.reverse_edges x
    · have hxn : x ∈ g.edges n := (hwf4 n x).mpr hnr
      rw [if_pos hnr, hFn]
      have hxF : x ∈ (g.edges n).filter (fun e => e ∉ result) := by
        rw [List.mem_filter]
        exact ⟨hxn, by simpa using hxres⟩
      have hstep : (g.edges n).filter (fun e => e ∉ result ++ [x])
          = ((g.edges n).filter (fun e => e ∉ result)).filter (fun e => e ≠ x) := by
        rw [List.filter_filter]
        apply List.filter_congr
        intro e he
        simp only [List.mem_append, List.mem_singleton, decide_not]
        by_cases h1 : e ∈ result <;> by_cases h2 : e = x <;> simp [h1, h2]
      have herase : ((g.edges n).filter (fun e => e ∉ result)).filter (fun e => e ≠ x)
          = ((g.edges n).filter (fun e => e ∉ result)).erase x := by
        rw [((hwf2 n).filter _).erase_eq_filter x]
        apply List.filter_congr
        intro e _
        by_cases h : e = x <;> simp [h]
      have hlen := ((g.edges n).filter (fun e => e ∉ result)).length_erase_of_mem hxF
      have hpos : 0 < ((g.edges n).filter (fun e => e ∉ result)).length :=
        List.length_pos.mpr (List.ne_nil_of_mem hxF)
      rw [hstep, herase, hlen]
      omega
    · have hxn : x ∉ g.edges n := fun hx => hnr ((hwf4 n x).mp hx)
      rw [if_neg hnr, hFn]
      congr 2
      apply List.filter_congr
      intro e he
      have hex : e ≠ x := fun h => hxn (h ▸ he)
      simp [List.mem_append, hex]
  · -- queued
    intro q hq d hd
    rw [K2] at hq
    rcases List.mem_append.mp hq with h | h
    · exact List.mem_append_left _ (inv.queued q (List.mem_cons_of_mem x h) d hd)
    · exact (hnewly q h).2.2.1 d hd
  · -- covered
    intro n hn hall
    by_cases hres : ∀ d ∈ g.edges n, d ∈ result
    · rcases inv.covered n hn hres with h | h
      · exact Or.inl (List.mem_append_left _ h)
      · rcases List.mem_cons.mp h with h | h
        · subst h
          exact Or.inl (by simp)
        · rw [K2]
          exact Or.inr (List.mem_append_left _ h)
    · push_neg at hres
      obtain ⟨d0, hd0, hd0r⟩ := hres
      have hd0x : d0 = x := by
        rcases List.mem_append.mp (hall d0 hd0) with h | h
        · exact absurd h hd0r
        · simpa using h
      subst hd0x
      have hnr : n ∈ g.reverse_edges d0 := (hwf4 n d0).mp hd0
      have hFn := inv.indeg_eq n hn
      have hd0F : d0 ∈ (g.edges n).filter (fun e => e ∉ result) := by
        rw [List.mem_filter]
        exact ⟨hd0, by simpa using hd0r⟩
      have hallx : ∀ e ∈ (g.edges n).filter (fun e => e ∉ result), e = d0 := by
        intro e he
        rw [List.mem_filter] at he
        obtain ⟨he1, he2⟩ := he
        rcases List.mem_append.mp (hall e he1) with h | h
        · exact absurd h (by simpa using he2)
        · simpa using h
      have hsingle := eq_singleton_of_all_eq hd0F hallx ((hwf2 n).filter _)
      rw [hsingle] at hFn
      right
      rw [K2]
      apply List.mem_append_right
      rw [List.mem_filter]
      refine ⟨hnr, ?_⟩
      simp [hFn]
  · -- ordered
    intro i hi d hd
    rw [List.length_append, List.length_singleton] at hi
    by_cases hilt : i < result.length
    · have hget : (result ++ [x]).get ⟨i, by simpa using hi⟩ = result.get ⟨i, hilt⟩ := by
        simp [List.getElem_append_left hilt]
      rw [hget] at hd
      have hord := inv.ordered i hilt d hd
      rw [List.take_append_of_le_length (Nat.le_of_lt hilt)]
      exact hord
    · have hieq : i = result.length := by omega
      subst hieq
      have hget : (result ++ [x]).get ⟨result.length, by simp⟩ = x := by
        simp
      rw [hget] at hd
      rw [List.take_append_of_le_length (Nat.le_refl _), List.take_length]
      exact hdepx d hd

/-- Running the Kahn loop from an invariant state with enough fuel never
exhausts the fuel and establishes the final-state facts. -/
theorem kahnLoop_run {g : DependencyGraph} (hwf : WF g) :
    ∀ (fuel : Nat) (queue : List String) (indeg : String → Int) (result : List String),
    KahnInv g queue indeg result →
    g.nodes.length ≤ fuel + result.length →
    ∃ r, kahnLoop g.reverse_edges fuel queue indeg result = some r ∧
      r.Nodup ∧ (∀ x ∈ r, x ∈ g.nodes) ∧
      (∀ i (hi : i < r.length), ∀ d ∈ g.edges (r.get ⟨i, hi⟩), d ∈ r.take i) ∧
      (∀ n ∈ g.nodes, (∀ d ∈ g.edges n, d ∈ r) → n ∈ r) := by
  have hdone : ∀ (fuel : Nat) (indeg : String → Int) (result : List String),
      KahnInv g [] indeg result →
      ∃ r, kahnLoop g.reverse_edges fuel [] indeg result = some r ∧
        r.Nodup ∧ (∀ x ∈ r, x ∈ g.nodes) ∧
        (∀ i (hi : i < r.length), ∀ d ∈ g.edges (r.get ⟨i, hi⟩), d ∈ r.take i) ∧
        (∀ n ∈ g.nodes, (∀ d ∈ g.edges n, d ∈ r) → n ∈ r) := by
    intro fuel indeg result inv
    refine ⟨result, ?_, ?_, ?_, inv.ordered, ?_⟩
    · cases fuel <;> rfl
    · have := inv.nodup
      simpa using this
    · intro x hx
      exact inv.subset x (by simpa using hx)
    · intro n hn hall
      rcases inv.covered n hn hall with h | h
      · exact h
      · cases h
  intro fuel
  induction fuel with
  | zero =>
    intro queue indeg result inv hfuel
    cases queue with
    | nil => exact hdone 0 indeg result inv
    | cons x qs =>
      exfalso
      have hsub : (result ++ x :: qs) ⊆ g.nodes := fun a ha => inv.subset a ha
      have hle := (List.subperm_of_subset inv.nodup hsub).length_le
      rw [List.length_append, List.length_cons] at hle
      omega
  | succ fuel ih =>
    intro queue indeg result inv hfuel
    cases queue with
    | nil => exact hdone (fuel + 1) indeg result inv
    | cons x qs =>
      have hstep := kahn_step_inv hwf inv
      have := ih _ _ _ hstep (by
        rw [List.length_append, List.length_singleton]
        omega)
      simpa [kahnLoop] using this

/-- The invariant holds at the start of `topological_sort`. -/
theorem kahn_init_inv {g : DependencyGraph} (hwf : WF g) :
    KahnInv g (g.nodes.filter (fun n => (g.edges n).length = 0))
      (fun n => ((g.edges n).length : Int)) [] := by
  obtain ⟨hwf1, hwf2, hwf3, hwf4, hwf5⟩ := hwf
  refine ⟨?_, ?_, ?_, ?_, ?_, ?_⟩
  · simpa using hwf1.filter _
  · intro a ha
    simp only [List.nil_append] at ha
    exact (List.mem_filter.mp ha).1
  · intro n _
    have : (g.edges n).filter (fun d => d ∉ ([] : List String)) = g.edges n := by
      simp
    rw [this]
  · intro q hq d hd
    have := (List.mem_filter.mp hq).2
    have hz : (g.edges q).length = 0 := by simpa using this
    rw [List.length_eq_zero.mp hz] at hd
    cases hd
  · intro n hn hall
    right
    rw [List.mem_filter]
    refine ⟨hn, ?_⟩
    have : g.edges n = [] := by
      apply List.eq_nil_iff_forall_not_mem.mpr
      intro d hd
      cases hall d hd
    simp [this]
  · intro i hi
    simp at hi

/-- Partial correctness of `topological_sort`: a returned list is a
duplicate-free permutation of the node set whose prefixes are closed under
dependencies. -/
theorem topo_sound {g : DependencyGraph} {r : List String} (hwf : WF g)
    (h : topological_sort g = some r) :
    r.Nodup ∧ r.Perm g.nodes ∧
      (∀ i (hi : i < r.length), ∀ d ∈ g.edges (r.get ⟨i, hi⟩), d ∈ r.take i) := by
  obtain ⟨r0, hr0, hnd, hsub, hord, _⟩ :=
    kahnLoop_run hwf (g.nodes.length + 1) _ _ [] (kahn_init_inv hwf) (by simp)
  simp only [topological_sort, hr0] at h
  split at h
  · rename_i hlen
    have hr : r0 = r := by
      simpa using h
    subst hr
    refine ⟨hnd, ?_, hord⟩
    exact (List.subperm_of_subset hnd (fun a ha => hsub a ha)).perm_of_length_le
      (by omega)
  · cases h

/-- Every node of a returned topological order lists its dependencies
earlier. -/
theorem indexOf_lt_of_mem_take {l : List String} {b : String} :
    ∀ {i : Nat}, b ∈ l.take i → l.indexOf b < i := by
  induction l with
  | nil => intro i h; simp at h
  | cons a t ih =>
    intro i h
    cases i with
    | zero => simp at h
    | succ i =>
      rw [List.take_succ_cons] at h
      by_cases hba : b = a
      · subst hba
        rw [List.indexOf_cons_self]
        omega
      · rcases List.mem_cons.mp h with h1 | h1
        · exact absurd h1 hba
        · rw [List.indexOf_cons_ne _ (fun he => hba he.symm)]
          have := ih h1
          omega

/-- The dependency-order property of a returned topological order, phrased
with indices: the target of every edge appears strictly earlier. -/
theorem topo_indexOf_lt {g : DependencyGraph} {r : List String} (hwf : WF g)
    (h : topological_sort g = some r) :
    ∀ a b, Edge g a b → r.indexOf b < r.indexOf a := by
  obtain ⟨hnd, hperm, hord⟩ := topo_sound hwf h
  intro a b hab
  have hb : b ∈ g.edges a := hab
  have hanodes : a ∈ g.nodes := ((hwf.2.2.2.2) a b hb).1
  have har : a ∈ r := hperm.mem_iff.mpr hanodes
  have hia : r.indexOf a < r.length := List.indexOf_lt_length.mpr har
  have hget : r.get ⟨r.indexOf a, hia⟩ = a := List.indexOf_get hia
  have := hord (r.indexOf a) hia b (by rw [hget]; exact hb)
  exact indexOf_lt_of_mem_take this

/-- A graph with a successful topological sort is acyclic. -/
theorem acyclic_of_topo_some {g : DependencyGraph} {r : List String} (hwf : WF g)
    (h : topological_sort g = some r) : Acyclic g := by
  intro n hreach
  have hlt : ∀ a b, Reaches g a b → r.indexOf b < r.indexOf a := by
    intro a b hr
    induction hr with
    | single hab => exact topo_indexOf_lt hwf h _ _ hab
    | tail _ hbc ih =>
      have := topo_indexOf_lt hwf h _ _ hbc
      omega
  have := hlt n n hreach
  omega

/-- Positions of a chain are related by the transitive closure. -/
theorem chain'_transGen_get {R : String → String → Prop} {c : List String}
    (hc : List.Chain' R c) :
    ∀ (d : Nat) (i j : Fin c.length), j.val = i.val + d + 1 →
      Relation.TransGen R (c.get i) (c.get j) := by
  intro d
  induction d with
  | zero =>
    intro i j hj
    have hr := List.chain'_iff_get.mp hc i.val (by omega)
    apply Relation.TransGen.single
    have hi : (⟨i.val, by omega⟩ : Fin c.length) = i := by
      apply Fin.ext
      rfl
    have hj2 : (⟨i.val + 1, by omega⟩ : Fin c.length) = j := by
      apply Fin.ext
      simp [hj]
    rwa [hi, hj2] at hr
  | succ d ih =>
    intro i j hj
    have him : i.val + 1 < c.length := by omega
    have hr := List.chain'_iff_get.mp hc i.val (by omega)
    apply Relation.TransGen.head
    · have hi : (⟨i.val, by omega⟩ : Fin c.length) = i := by
        apply Fin.ext
        rfl
      rw [← hi]
      exact hr
    · exact ih ⟨i.val + 1, him⟩ j (by simp; omega)

/-- In a finite nonempty set where every element has a successor inside the
set, some element lies on a cycle (pigeonhole along a long enough chain). -/
theorem exists_cycle_of_closed {g : DependencyGraph} {U : List String} (hne : U ≠ [])
    (hstep : ∀ n ∈ U, ∃ d ∈ U, Edge g n d) : ∃ n, Reaches g n n := by
  obtain ⟨n0, hn0⟩ := List.exists_mem_of_ne_nil U hne
  have hchain : ∀ k : Nat, ∃ c : List String, c.length = k + 1 ∧ (∀ x ∈ c, x ∈ U) ∧
      List.Chain' (Edge g) c ∧ c.getLast? ≠ none := by
    intro k
    induction k with
    | zero => exact ⟨[n0], rfl, by simpa using hn0, List.chain'_singleton n0, by simp⟩
    | succ k ih =>
      obtain ⟨c, hlen, hmem, hch, hlast⟩ := ih
      obtain ⟨last, hlastv⟩ := Option.ne_none_iff_exists'.mp hlast
      have hlastU : last ∈ U := by
        obtain ⟨hcn, hlx⟩ := List.mem_getLast?_eq_getLast
          (show last ∈ c.getLast? from by rw [hlastv]; rfl)
        exact hmem last (hlx ▸ List.getLast_mem hcn)
      obtain ⟨d, hdU, hEd⟩ := hstep last hlastU
      refine ⟨c ++ [d], by simp [hlen], ?_, ?_, by simp⟩
      · intro x hx
        rcases List.mem_append.mp hx with h | h
        · exact hmem x h
        · rw [List.mem_singleton] at h
          exact h ▸ hdU
      · rw [List.chain'_append]
        refine ⟨hch, List.chain'_singleton d, ?_⟩
        intro x hx y hy
        simp only [List.head?_cons, Option.mem_def, Option.some.injEq] at hy
        rw [hlastv] at hx
        simp only [Option.mem_def, Option.some.injEq] at hx
        rw [← hx, ← hy]
        exact hEd
  obtain ⟨c, hlen, hmem, hch, _⟩ := hchain U.length
  have hnotnd : ¬c.Nodup := by
    intro hnd
    have := (List.subperm_of_subset hnd (fun a ha => hmem a ha)).length_le
    omega
  rw [List.nodup_iff_injective_get] at hnotnd
  simp only [Function.Injective] at hnotnd
  push_neg at hnotnd
  obtain ⟨i, j, hgij, hij⟩ := hnotnd
  rcases Nat.lt_or_ge i.val j.val with hl | hg
  · exact ⟨c.get i, by
      have := chain'_transGen_get hch (j.val - i.val - 1) i j (by omega)
      rwa [← hgij] at this⟩
  · have hl : j.val < i.val := by
      rcases Nat.eq_or_lt_of_le hg with he | hlt
      · exact absurd (Fin.ext he.symm) hij
      · exact hlt
    exact ⟨c.get j, by
      have := chain'_transGen_get hch (i.val - j.val - 1) j i (by omega)
      rwa [hgij] at this⟩

/-- Completeness of `topological_sort`: on an acyclic well-formed graph it
returns an ordering. -/
theorem topo_some_of_acyclic {g : DependencyGraph} (hwf : WF g) (hac : Acyclic g) :
    ∃ r, topological_sort g = some r := by
  obtain ⟨r0, hr0, hnd, hsub, _, hcov⟩ :=
    kahnLoop_run hwf (g.nodes.length + 1) _ _ [] (kahn_init_inv hwf) (by simp)
  refine ⟨r0, ?_⟩
  simp only [topological_sort, hr0]
  have hlen : r0.length = g.nodes.length := by
    have hle := (List.subperm_of_subset hnd (fun a ha => hsub a ha)).length_le
    rcases Nat.eq_or_lt_of_le hle with he | hlt
    · exact he
    · exfalso
      -- some node is missing from r0; the missing nodes are closed under
      -- "has an unemitted dependency", which yields a cycle
      have hmissing : ∃ n ∈ g.nodes, n ∉ r0 := by
        by_contra hall
        push_neg at hall
        have : g.nodes ⊆ r0 := fun a ha => hall a ha
        have := (List.subperm_of_subset hwf.1 this).length_le
        omega
      set U := g.nodes.filter (fun n => n ∉ r0) with hU
      have hUne : U ≠ [] := by
        obtain ⟨n, hn, hnr⟩ := hmissing
        intro he
        have : n ∈ U := by
          rw [hU, List.mem_filter]
          exact ⟨hn, by simpa using hnr⟩
        rw [he] at this
        cases this
      have hUstep : ∀ n ∈ U, ∃ d ∈ U, Edge g n d := by
        intro n hn
        rw [hU, List.mem_filter] at hn
        obtain ⟨hnn, hnr⟩ := hn
        have hnr2 : n ∉ r0 := by simpa using hnr
        have : ¬∀ d ∈ g.edges n, d ∈ r0 := fun hall => hnr2 (hcov n hnn hall)
        push_neg at this
        obtain ⟨d, hd, hdr⟩ := this
        refine ⟨d, ?_, hd⟩
        rw [hU, List.mem_filter]
        exact ⟨(hwf.2.2.2.2 n d hd).2, by simpa using hdr⟩
      obtain ⟨n, hcyc⟩ := exists_cycle_of_closed hUne hUstep
      exact hac n hcyc
  rw [if_pos hlen]

/-! ### Claim C2 -/

/-- C2: for every well-formed graph, `topological_sort` returns the
no-ordering sentinel (`none`) exactly when the graph has a cycle, and a
returned ordering is a permutation of the node set in which the target of
every dependency edge `(from, to)` is placed strictly before its source. -/
theorem C2_topological_sort_correct (g : DependencyGraph) (hwf : WF g) :
    (topological_sort g = none ↔ ¬ Acyclic g) ∧
    ∀ r, topological_sort g = some r →
      r.Perm g.nodes ∧ ∀ a b, Edge g a b → r.indexOf b < r.indexOf a := by
  constructor
  · constructor
    · intro hnone hac
      obtain ⟨r, hr⟩ := topo_some_of_acyclic hwf hac
      rw [hnone] at hr
      cases hr
    · intro hcyc
      cases htopo : topological_sort g with
      | none => rfl
      | some r => exact absurd (acyclic_of_topo_some hwf htopo) hcyc
  · intro r hr
    exact ⟨(topo_sound hwf hr).2.1, topo_indexOf_lt hwf hr⟩

/-- Witness for C2 at the concrete chain `C → B → A`. -/
theorem C2_topological_sort_correct_witness :
    (topological_sort (add_edge (add_edge DependencyGraph.empty "C" "B") "B" "A") = none ↔
      ¬ Acyclic (add_edge (add_edge DependencyGraph.empty "C" "B") "B" "A")) ∧
    ∀ r, topological_sort (add_edge (add_edge DependencyGraph.empty "C" "B") "B" "A") = some r →
      r.Perm (add_edge (add_edge DependencyGraph.empty "C" "B") "B" "A").nodes ∧
      ∀ a b, Edge (add_edge (add_edge DependencyGraph.empty "C" "B") "B" "A") a b →
        r.indexOf b < r.indexOf a :=
  C2_topological_sort_correct (add_edge (add_edge DependencyGraph.empty "C" "B") "B" "A")
    (WF_add_edge (WF_add_edge WF_empty "C" "B") "B" "A")

/-! ### Correctness of the three-colour DFS cycle detection -/

/-- Colour values used by the DFS are 0, 1 or 2. -/
def StateRange (st : DfsState) : Prop := ∀ x, st.state x ≤ 2

/-- The black (state 2, fully visited) nodes are closed under edges. -/
def BlackClosed (g : DependencyGraph) (st : DfsState) : Prop :=
  ∀ x, st.state x = 2 → ∀ y ∈ g.edges x, st.state y = 2

/-- No black node lies on a cycle. -/
def BlackAcyclic (g : DependencyGraph) (st : DfsState) : Prop :=
  ∀ n, st.state n = 2 → ¬ Reaches g n n

/-- Every visiting (grey, state 1) node reaches `node`. -/
def GrayReach (g : DependencyGraph) (st : DfsState) (node : String) : Prop :=
  ∀ x, st.state x = 1 → Relation.ReflTransGen (Edge g) x node

/-- How a completed `dfs` call may change the colouring: blacks only grow,
greys are unchanged, new blacks were white, and whites only shrink. -/
def Evolve (st st' : DfsState) : Prop :=
  (∀ x, st.state x = 2 → st'.state x = 2) ∧
  (∀ x, st'.state x = 1 ↔ st.state x = 1) ∧
  (∀ x, st'.state x = 2 → st.state x = 2 ∨ st.state x = 0) ∧
  (∀ x, st'.state x = 0 → st.state x = 0)

/-- Number of white nodes. -/
def whiteCount (g : DependencyGraph) (st : DfsState) : Nat :=
  (g.nodes.filter (fun n => st.state n = 0)).length

theorem Evolve.rfl {st : DfsState} : Evolve st st :=
  ⟨fun _ h => h, fun _ => Iff.rfl, fun _ h => Or.inl h, fun _ h => h⟩

theorem Evolve.trans {st1 st2 st3 : DfsState} (h12 : Evolve st1 st2) (h23 : Evolve st2 st3) :
    Evolve st1 st3 := by
  obtain ⟨a12, b12, c12, d12⟩ := h12
  obtain ⟨a23, b23, c23, d23⟩ := h23
  refine ⟨fun x h => a23 x (a12 x h), fun x => (b23 x).trans (b12 x), ?_, fun x h => d12 x (d23 x h)⟩
  intro x h
  rcases c23 x h with h2 | h2
  · exact c12 x h2
  · exact Or.inr (d12 x h2)

theorem length_filter_le_of_imp {l : List String} {p q : String → Bool}
    (h : ∀ a ∈ l, p a = true → q a = true) :
    (l.filter p).length ≤ (l.filter q).length := by
  induction l with
  | nil => simp
  | cons b t ih =>
    have ht : ∀ a ∈ t, p a = true → q a = true := fun a ha => h a (List.mem_cons_of_mem b ha)
    rcases hp : p b with _ | _ <;> rcases hq : q b with _ | _ <;>
      simp [List.filter_cons, hp, hq]
    · exact ih ht
    · exact Nat.le_succ_of_le (ih ht)
    · exact absurd (h b (List.mem_cons_self b t) hp) (by simp [hq])
    · exact ih ht

theorem length_filter_lt_of_imp {l : List String} {p q : String → Bool} {c : String}
    (h : ∀ a ∈ l, p a = true → q a = true) (ha0 : c ∈ l) (hq0 : q c = true)
    (hp0 : p c = false) : (l.filter p).length < (l.filter q).length := by
  induction l with
  | nil => cases ha0
  | cons b t ih =>
    have ht : ∀ a ∈ t, p a = true → q a = true := fun a ha => h a (List.mem_cons_of_mem b ha)
    rcases List.mem_cons.mp ha0 with hb | hb
    · subst hb
      rw [List.filter_cons, List.filter_cons, hp0, hq0]
      simp only [if_neg Bool.false_ne_true]
      exact Nat.lt_succ_of_le (length_filter_le_of_imp ht)
    · rcases hp : p b with _ | _ <;> rcases hq : q b with _ | _ <;>
        simp [List.filter_cons, hp, hq]
      · exact ih ht hb
      · exact Nat.lt_succ_of_lt (ih ht hb)
      · exact absurd (h b (List.mem_cons_self b t) hp) (by simp [hq])
      · exact ih ht hb

/-- Whites can only shrink along `Evolve`. -/
theorem whiteCount_le_of_evolve {g : DependencyGraph} {st st' : DfsState}
    (h : Evolve st st') : whiteCount g st' ≤ whiteCount g st := by
  apply length_filter_le_of_imp
  intro a _ ha
  have := h.2.2.2 a (by simpa using ha)
  simpa using this

/-- Everything reachable from a black node is black. -/
theorem black_reach_black {g : DependencyGraph} {st : DfsState} (hcl : BlackClosed g st)
    {y z : String} (hy : st.state y = 2) (hr : Relation.ReflTransGen (Edge g) y z) :
    st.state z = 2 := by
  induction hr with
  | refl => exact hy
  | tail _ hedge ih => exact hcl _ ih _ hedge

theorem foldl_dfsStep_found (visit : String → DfsState → DfsRes) (node : String) (tfuel : Nat)
    (l : List String) (p : List String) :
    l.foldl (dfsStep visit node tfuel) (.found p) = .found p := by
  induction l with
  | nil => rfl
  | cons y t ih => simpa [dfsStep] using ih

/-- Main invariant lemma for one `dfs` call: with enough fuel it never runs
out; a `found` outcome certifies a cycle, and a `clean` outcome blackens the
node, preserves the invariants and strictly decreases the white count. -/
theorem dfsVisit_spec {g : DependencyGraph} (hwf : WF g) :
    ∀ (fuel : Nat) (node : String) (st : DfsState),
      st.state node = 0 → node ∈ g.nodes → StateRange st →
      BlackClosed g st → BlackAcyclic g st → GrayReach g st node →
      whiteCount g st ≤ fuel →
      (∃ p, dfsVisit g.edges fuel node st = .found p ∧ ∃ n, Reaches g n n) ∨
      (∃ st', dfsVisit g.edges fuel node st = .clean st' ∧ Evolve st st' ∧
        st'.state node = 2 ∧ StateRange st' ∧ BlackClosed g st' ∧ BlackAcyclic g st' ∧
        whiteCount g st' + 1 ≤ whiteCount g st) := by
  intro fuel
  induction fuel with
  | zero =>
    intro node st hwhite hmem _ _ _ _ hfuel
    exfalso
    have hmf : node ∈ g.nodes.filter (fun n => st.state n = 0) := by
      rw [List.mem_filter]
      exact ⟨hmem, by simp [hwhite]⟩
    have := List.length_pos.mpr (List.ne_nil_of_mem hmf)
    unfold whiteCount at hfuel
    omega
  | succ fuel ih =>
    intro node st hwhite hmem hrange hclosed hbacyc hgray hfuel
    set st1 : DfsState := { st with state := fun n => if n = node then 1 else st.state n }
      with hst1
    have hdef : dfsVisit g.edges (fuel+1) node st =
        match (g.edges node).foldl (dfsStep (dfsVisit g.edges fuel) node (fuel+1))
            (.clean st1) with
        | .clean st2 => .clean { st2 with state := fun n => if n = node then 2 else st2.state n }
        | other => other := rfl
    have hst1state : ∀ x, st1.state x = if x = node then 1 else st.state x := fun _ => rfl
    have h1node : st1.state node = 1 := by simp [hst1state]
    have h1range : StateRange st1 := by
      intro x
      rw [hst1state]
      split
      · omega
      · exact hrange x
    have h1closed : BlackClosed g st1 := by
      intro x hx y hy
      rw [hst1state] at hx
      rw [hst1state]
      split at hx
      · exact absurd hx (by omega)
      · have hyb := hclosed x hx y hy
        split
        · rename_i hyn
          rw [hyn] at hyb
          rw [hwhite] at hyb
          exact absurd hyb (by omega)
        · exact hyb
    have h1bacyc : BlackAcyclic g st1 := by
      intro n hn
      rw [hst1state] at hn
      split at hn
      · exact absurd hn (by omega)
      · exact hbacyc n hn
    have h1gray : GrayReach g st1 node := by
      intro x hx
      rw [hst1state] at hx
      split at hx
      · rename_i hxn
        subst hxn
        exact Relation.ReflTransGen.refl
      · exact hgray x hx
    have h1white : whiteCount g st1 + 1 ≤ whiteCount g st := by
      have hlt : whiteCount g st1 < whiteCount g st := by
        apply length_filter_lt_of_imp (c := node)
        · intro a _ ha
          rw [decide_eq_true_iff] at ha
          rw [hst1state] at ha
          split at ha
          · exact absurd ha (by omega)
          · simp [ha]
        · exact hmem
        · simp [hwhite]
        · simp [hst1state]
      omega
    have hfold : ∀ (l : List String), (∀ y ∈ l, y ∈ g.edges node) →
        ∀ st2 : DfsState, st2.state node = 1 → StateRange st2 → BlackClosed g st2 →
        BlackAcyclic g st2 → GrayReach g st2 node → whiteCount g st2 ≤ fuel →
        (∃ p, l.foldl (dfsStep (dfsVisit g.edges fuel) node (fuel+1)) (.clean st2)
            = .found p ∧ ∃ n, Reaches g n n) ∨
        (∃ st3, l.foldl (dfsStep (dfsVisit g.edges fuel) node (fuel+1)) (.clean st2)
            = .clean st3 ∧ Evolve st2 st3 ∧ st3.state node = 1 ∧ StateRange st3 ∧
          BlackClosed g st3 ∧ BlackAcyclic g st3 ∧ GrayReach g st3 node ∧
          whiteCount g st3 ≤ whiteCount g st2 ∧ (∀ y ∈ l, st3.state y = 2)) := by
      intro l
      induction l with
      | nil =>
        intro _ st2 h2node h2range h2closed h2bacyc h2gray h2fuel
        right
        exact ⟨st2, rfl, Evolve.rfl, h2node, h2range, h2closed, h2bacyc, h2gray,
          Nat.le_refl _, by simp⟩
      | cons y t ihl =>
        intro hsub st2 h2node h2range h2closed h2bacyc h2gray h2fuel
        have hy : y ∈ g.edges node := hsub y (List.mem_cons_self y t)
        have hsubt : ∀ z ∈ t, z ∈ g.edges node := fun z hz => hsub z (List.mem_cons_of_mem y hz)
        rw [List.foldl_cons]
        by_cases hy1 : st2.state y = 1
        · have hstep : dfsStep (dfsVisit g.edges fuel) node (fuel+1) (.clean st2) y
              = .found (buildCycle st2.parent node y (fuel+1)) := by
            simp [dfsStep, hy1]
          rw [hstep, foldl_dfsStep_found]
          left
          exact ⟨_, rfl, ⟨y, Relation.TransGen.tail' (h2gray y hy1) hy⟩⟩
        · by_cases hy0 : st2.state y = 0
          · have hstep : dfsStep (dfsVisit g.edges fuel) node (fuel+1) (.clean st2) y
                = dfsVisit g.edges fuel y
                    { st2 with parent := fun n => if n = y then some node else st2.parent n } := by
              simp [dfsStep, hy1, hy0]
            have hynodes : y ∈ g.nodes := (hwf.2.2.2.2 node y hy).2
            have hvisit := ih y
              { st2 with parent := fun n => if n = y then some node else st2.parent n }
              hy0 hynodes h2range h2closed h2bacyc
              (fun x hx => Relation.ReflTransGen.tail (h2gray x hx) hy) h2fuel
            rcases hvisit with ⟨p, hp, hc⟩ | ⟨st'', hst'', hev, hyblack, hrange'', hclosed'',
              hbacyc'', hwc''⟩
            · rw [hstep, hp, foldl_dfsStep_found]
              left
              exact ⟨p, rfl, hc⟩
            · rw [hstep, hst'']
              have hev2 : Evolve st2 st'' := hev
              have hwc2 : whiteCount g st'' + 1 ≤ whiteCount g st2 := hwc''
              have h''node : st''.state node = 1 := (hev2.2.1 node).mpr h2node
              have h''gray : GrayReach g st'' node := fun x hx => h2gray x ((hev2.2.1 x).mp hx)
              rcases ihl hsubt st'' h''node hrange'' hclosed'' hbacyc'' h''gray (by omega) with
                ⟨p, hp, hc⟩ | ⟨st3, hst3, hev3, h3node, hrange3, hclosed3, hbacyc3, h3gray,
                  hwc3, hblack3⟩
              · left
                exact ⟨p, hp, hc⟩
              · right
                refine ⟨st3, hst3, hev2.trans hev3, h3node, hrange3, hclosed3, hbacyc3,
                  h3gray, by omega, ?_⟩
                intro z hz
                rcases List.mem_cons.mp hz with hzy | hzt
                · subst hzy
                  exact hev3.1 z hyblack
                · exact hblack3 z hzt
          · have hy2 : st2.state y = 2 := by
              have := h2range y
              omega
            have hstep : dfsStep (dfsVisit g.edges fuel) node (fuel+1) (.clean st2) y
                = .clean st2 := by
              simp [dfsStep, hy1, hy0]
            rw [hstep]
            rcases ihl hsubt st2 h2node h2range h2closed h2bacyc h2gray h2fuel with
              ⟨p, hp, hc⟩ | ⟨st3, hst3, hev3, h3node, hrange3, hclosed3, hbacyc3, h3gray,
                hwc3, hblack3⟩
            · left
              exact ⟨p, hp, hc⟩
            · right
              refine ⟨st3, hst3, hev3, h3node, hrange3, hclosed3, hbacyc3, h3gray, hwc3, ?_⟩
              intro z hz
              rcases List.mem_cons.mp hz with hzy | hzt
              · subst hzy
                exact hev3.1 z hy2
              · exact hblack3 z hzt
    have happ := hfold (g.edges node) (fun y hy => hy) st1 h1node h1range h1closed h1bacyc
      h1gray (by omega)
    rcases happ with ⟨p, hp, hc⟩ | ⟨st2, hst2, hev, h2node, hrange2, hclosed2, hbacyc2,
      h2gray, hwc2, hallblack⟩
    · left
      refine ⟨p, ?_, hc⟩
      rw [hdef, hp]
    · right
      refine ⟨{ st2 with state := fun n => if n = node then 2 else st2.state n }, ?_, ?_, ?_,
        ?_, ?_, ?_, ?_⟩
      · rw [hdef, hst2]
      · refine ⟨?_, ?_, ?_, ?_⟩
        · intro x hx
          have hxn : x ≠ node := fun he => by
            rw [he, hwhite] at hx
            exact absurd hx (by omega)
          have h1x : st1.state x = 2 := by
            rw [hst1state, if_neg hxn]
            exact hx
          have := hev.1 x h1x
          show (if x = node then 2 else st2.state x) = 2
          rw [if_neg hxn]
          exact this
        · intro x
          show (if x = node then 2 else st2.state x) = 1 ↔ st.state x = 1
          split
          · rename_i hxn
            subst hxn
            rw [hwhite]
            omega
          · rename_i hxn
            rw [hev.2.1 x, hst1state, if_neg hxn]
        · intro x hx
          show st.state x = 2 ∨ st.state x = 0
          by_cases hxn : x = node
          · subst hxn
            exact Or.inr hwhite
          · rw [show ({ st2 with state := fun n => if n = node then 2 else st2.state n }
                : DfsState).state x = (if x = node then 2 else st2.state x) from rfl,
              if_neg hxn] at hx
            rcases hev.2.2.1 x hx with h | h
            · rw [hst1state, if_neg hxn] at h
              exact Or.inl h
            · rw [hst1state, if_neg hxn] at h
              exact Or.inr h
        · intro x hx
          rw [show ({ st2 with state := fun n => if n = node then 2 else st2.state n }
              : DfsState).state x = (if x = node then 2 else st2.state x) from rfl] at hx
          split at hx
          · exact absurd hx (by omega)
          · rename_i hxn
            have := hev.2.2.2 x hx
            rw [hst1state, if_neg hxn] at this
            exact this
      · show (if node = node then 2 else st2.state node) = 2
        simp
      · intro x
        show (if x = node then 2 else st2.state x) ≤ 2
        split
        · omega
        · exact hrange2 x
      · intro x hx z hz
        show (if z = node then 2 else st2.state z) = 2
        by_cases hzn : z = node
        · rw [if_pos hzn]
        · rw [if_neg hzn]
          rw [show ({ st2 with state := fun n => if n = node then 2 else st2.state n }
              : DfsState).state x = (if x = node then 2 else st2.state x) from rfl] at hx
          split at hx
          · rename_i hxn
            subst hxn
            exact hallblack z hz
          · exact hclosed2 x hx z hz
      · intro n hn hcyc
        rw [show ({ st2 with state := fun n => if n = node then 2 else st2.state n }
            : DfsState).state n = (if n = node then 2 else st2.state n) from rfl] at hn
        split at hn
        · rename_i hnn
          subst hnn
          obtain ⟨b, hstep1, hrest⟩ := Relation.TransGen.head'_iff.mp hcyc
          have hbblack : st2.state b = 2 := hallblack b hstep1
          have := black_reach_black hclosed2 hbblack hrest
          rw [h2node] at this
          exact absurd this (by omega)
        · exact hbacyc2 n hn hcyc
      · have hle : whiteCount g
            { st2 with state := fun n => if n = node then 2 else st2.state n }
            ≤ whiteCount g st2 := by
          apply length_filter_le_of_imp
          intro a _ ha
          rw [decide_eq_true_iff] at ha
          rw [show ({ st2 with state := fun n => if n = node then 2 else st2.state n }
              : DfsState).state a = (if a = node then 2 else st2.state a) from rfl] at ha
          split at ha
          · exact absurd ha (by omega)
          · simp [ha]
        omega

/-- Driver-loop lemma of `detect_cycle`: scanning nodes with no grey nodes
present either finds a certified cycle or blackens every scanned node while
preserving the invariants. -/
theorem detectLoop_spec {g : DependencyGraph} (hwf : WF g) :
    ∀ (l : List String) (st : DfsState),
      (∀ y ∈ l, y ∈ g.nodes) →
      StateRange st → BlackClosed g st → BlackAcyclic g st → (∀ x, st.state x ≠ 1) →
      (∃ p, detectLoop g.edges (g.nodes.length + 1) l st = some p ∧ ∃ n, Reaches g n n) ∨
      (∃ st', detectLoop g.edges (g.nodes.length + 1) l st = none ∧ Evolve st st' ∧
        StateRange st' ∧ BlackClosed g st' ∧ BlackAcyclic g st' ∧ (∀ x, st'.state x ≠ 1) ∧
        (∀ y ∈ l, st'.state y = 2)) := by
  intro l
  induction l with
  | nil =>
    intro st _ h1 h2 h3 h4
    right
    exact ⟨st, rfl, Evolve.rfl, h1, h2, h3, h4, by simp⟩
  | cons y t ihl =>
    intro st hsub h1 h2 h3 h4
    have hyn : y ∈ g.nodes := hsub y (List.mem_cons_self y t)
    rw [detectLoop]
    by_cases hy0 : st.state y = 0
    · rw [if_pos hy0]
      have hfuel : whiteCount g st ≤ g.nodes.length + 1 := by
        have := List.length_filter_le (fun n => decide (st.state n = 0)) g.nodes
        unfold whiteCount
        omega
      have hvisit := dfsVisit_spec hwf (g.nodes.length + 1) y st hy0 hyn h1 h2 h3
        (fun x hx => absurd hx (h4 x)) hfuel
      rcases hvisit with ⟨p, hp, hc⟩ | ⟨st', hst', hev, hyb, hr', hc', hb', _⟩
      · rw [hp]
        left
        exact ⟨p, rfl, hc⟩
      · rw [hst']
        have h4' : ∀ x, st'.state x ≠ 1 := fun x hx => h4 x ((hev.2.1 x).mp hx)
        rcases ihl st' (fun z hz => hsub z (List.mem_cons_of_mem y hz)) hr' hc' hb' h4' with
          ⟨p, hp, hcyc⟩ | ⟨st'', heq, hev2, ha, hb, hc2, hd, he⟩
        · left
          exact ⟨p, hp, hcyc⟩
        · right
          refine ⟨st'', heq, hev.trans hev2, ha, hb, hc2, hd, ?_⟩
          intro z hz
          rcases List.mem_cons.mp hz with hzy | hzt
          · subst hzy
            exact hev2.1 z hyb
          · exact he z hzt
    · rw [if_neg hy0]
      have hy2 : st.state y = 2 := by
        have := h1 y
        have := h4 y
        omega
      rcases ihl st (fun z hz => hsub z (List.mem_cons_of_mem y hz)) h1 h2 h3 h4 with
        ⟨p, hp, hcyc⟩ | ⟨st'', heq, hev2, ha, hb, hc2, hd, he⟩
      · left
        exact ⟨p, hp, hcyc⟩
      · right
        refine ⟨st'', heq, hev2, ha, hb, hc2, hd, ?_⟩
        intro z hz
        rcases List.mem_cons.mp hz with hzy | hzt
        · subst hzy
          exact hev2.1 z hy2
        · exact he z hzt

/-- `detect_cycle` returns `none` exactly on acyclic well-formed graphs. -/
theorem detect_cycle_none_iff {g : DependencyGraph} (hwf : WF g) :
    detect_cycle g = none ↔ Acyclic g := by
  have hinit := detectLoop_spec hwf g.nodes ⟨fun _ => 0, fun _ => none⟩ (fun y hy => hy)
    (fun x => by simp) (fun x hx => by simp at hx) (fun n hn => by simp at hn)
    (fun x => by simp)
  rcases hinit with ⟨p, hp, n, hcyc⟩ | ⟨st', hnone, _, _, _, hbacyc, _, hall⟩
  · have hdc : detect_cycle g = some p := hp
    apply iff_of_false
    · rw [hdc]
      simp
    · intro hac
      exact hac n hcyc
  · have hdc : detect_cycle g = none := hnone
    rw [hdc]
    apply iff_of_true rfl
    intro n hcyc
    obtain ⟨b, hstep1, _⟩ := Relation.TransGen.head'_iff.mp hcyc
    have hnn : n ∈ g.nodes := (hwf.2.2.2.2 n b hstep1).1
    exact hbacyc n (hall n hnn) hcyc

/-! ### Claim C10 -/

/-- C10: the two independent cycle-decision procedures agree: for every
well-formed graph, `topological_sort` returns the no-ordering sentinel
exactly when `detect_cycle` returns a cycle path. -/
theorem C10_cycle_detectors_agree (g : DependencyGraph) (hwf : WF g) :
    topological_sort g = none ↔ (detect_cycle g).isSome = true := by
  constructor
  · intro htopo
    cases hdc : detect_cycle g with
    | some p => rfl
    | none =>
      have hac := (detect_cycle_none_iff hwf).mp hdc
      obtain ⟨r, hr⟩ := topo_some_of_acyclic hwf hac
      rw [htopo] at hr
      cases hr
  · intro hsome
    cases hdc : detect_cycle g with
    | none =>
      rw [hdc] at hsome
      cases hsome
    | some p =>
      cases htopo : topological_sort g with
      | none => rfl
      | some r =>
        have hac := acyclic_of_topo_some hwf htopo
        have hn := (detect_cycle_none_iff hwf).mpr hac
        rw [hdc] at hn
        cases hn

/-- Witness for C10 at the concrete two-node cycle `a → b → a`. -/
theorem C10_cycle_detectors_agree_witness :
    topological_sort (add_edge (add_edge DependencyGraph.empty "a" "b") "b" "a") = none ↔
      (detect_cycle (add_edge (add_edge DependencyGraph.empty "a" "b") "b" "a")).isSome
        = true :=
  C10_cycle_detectors_agree (add_edge (add_edge DependencyGraph.empty "a" "b") "b" "a")
    (WF_add_edge (WF_add_edge WF_empty "a" "b") "b" "a")

/-! ### Claim C5 -/

/-- C5: on every well-formed graph with a cycle, `find_critical_path` returns
the defined degenerate result `([], 0)` instead of failing; on the concrete
three-node cycle `A → B → C → A`, `detect_cycle` returns a non-empty path
containing `A`, `B` and `C`, `topological_sort` returns the sentinel, and
`find_critical_path` returns `([], 0)`. -/
theorem C5_cycle_degenerate_results (g : DependencyGraph) (hwf : WF g)
    (hcyc : ¬ Acyclic g) :
    find_critical_path g = ([], 0) ∧
    ((detect_cycle (add_edge (add_edge (add_edge DependencyGraph.empty "A" "B") "B" "C")
        "C" "A")).getD [] ≠ [] ∧
      "A" ∈ (detect_cycle (add_edge (add_edge (add_edge DependencyGraph.empty "A" "B")
        "B" "C") "C" "A")).getD [] ∧
      "B" ∈ (detect_cycle (add_edge (add_edge (add_edge DependencyGraph.empty "A" "B")
        "B" "C") "C" "A")).getD [] ∧
      "C" ∈ (detect_cycle (add_edge (add_edge (add_edge DependencyGraph.empty "A" "B")
        "B" "C") "C" "A")).getD [] ∧
      topological_sort (add_edge (add_edge (add_edge DependencyGraph.empty "A" "B")
        "B" "C") "C" "A") = none ∧
      find_critical_path (add_edge (add_edge (add_edge DependencyGraph.empty "A" "B")
        "B" "C") "C" "A") = ([], 0)) := by
  constructor
  · have htopo : topological_sort g = none := by
      cases htopo : topological_sort g with
      | none => rfl
      | some r => exact absurd (acyclic_of_topo_some hwf htopo) hcyc
    cases hdc : detect_cycle g with
    | none => exact absurd ((detect_cycle_none_iff hwf).mp hdc) hcyc
    | some p =>
      cases p with
      | nil => simp [find_critical_path, hdc, htopo]
      | cons c cs => simp [find_critical_path, hdc]
  · refine ⟨?_, ?_, ?_, ?_, ?_, ?_⟩ <;> decide

/-- Witness for C5 at the concrete two-node cycle `a → b → a`. -/
theorem C5_cycle_degenerate_results_witness :
    ¬ Acyclic (add_edge (add_edge DependencyGraph.empty "a" "b") "b" "a") ∧
    find_critical_path (add_edge (add_edge DependencyGraph.empty "a" "b") "b" "a")
      = ([], 0) :=
  have hcyc : ¬ Acyclic (add_edge (add_edge DependencyGraph.empty "a" "b") "b" "a") :=
    fun hac => hac "a" (Relation.TransGen.head
      (show Edge (add_edge (add_edge DependencyGraph.empty "a" "b") "b" "a") "a" "b" by decide)
      (Relation.TransGen.single
        (show Edge (add_edge (add_edge DependencyGraph.empty "a" "b") "b" "a") "b" "a" by
          decide)))

  ⟨hcyc, (C5_cycle_degenerate_results (add_edge (add_edge DependencyGraph.empty "a" "b") "b" "a")
    (WF_add_edge (WF_add_edge WF_empty "a" "b") "b" "a") hcyc).1⟩

/-! ### Correctness of the reachability worklist (`get_all_dependencies`) -/

theorem sum_filter_insert {g : DependencyGraph} (hnd : g.nodes.Nodup) {result : List String}
    {current : String} (hcn : current ∈ g.nodes) (hcr : current ∉ result) :
    ((g.nodes.filter (fun x => x ∉ result.insert current)).map
        (fun x => (g.edges x).length)).sum + (g.edges current).length
      = ((g.nodes.filter (fun x => x ∉ result)).map (fun x => (g.edges x).length)).sum := by
  have hA : current ∈ g.nodes.filter (fun x => x ∉ result) := by
    rw [List.mem_filter]
    exact ⟨hcn, by simpa using hcr⟩
  have hand : (g.nodes.filter (fun x => x ∉ result)).Nodup := hnd.filter _
  have hsplit : g.nodes.filter (fun x => x ∉ result.insert current)
      = (g.nodes.filter (fun x => x ∉ result)).erase current := by
    rw [hand.erase_eq_filter, List.filter_filter]
    apply List.filter_congr
    intro a _
    rw [List.insert_of_not_mem hcr]
    by_cases h1 : a = current <;> by_cases h2 : a ∈ result <;> simp [h1, h2]
  rw [hsplit]
  have hperm := List.perm_cons_erase hA
  have := (hperm.map (fun x => (g.edges x).length)).sum_eq
  rw [this]
  simp [Nat.add_comm]

/-- The worklist loop of `get_all_dependencies` computes exactly the set of
nodes reachable along one or more dependency edges. -/
theorem reachLoop_spec {g : DependencyGraph} (hwf : WF g) (n : String) :
    ∀ (fuel : Nat) (stack result : List String),
      (∀ x ∈ result, Reaches g n x) →
      (∀ x ∈ stack, Reaches g n x) →
      (∀ e ∈ g.edges n, e ∈ result ∨ e ∈ stack) →
      (∀ x ∈ result, ∀ e ∈ g.edges x, e ∈ result ∨ e ∈ stack) →
      stack.length + ((g.nodes.filter (fun x => x ∉ result)).map
        (fun x => (g.edges x).length)).sum + 1 ≤ fuel →
      ∀ x, x ∈ reachLoop g.edges fuel stack result ↔ Reaches g n x := by
  intro fuel
  induction fuel with
  | zero =>
    intro stack result _ _ _ _ hle
    omega
  | succ fuel ihf =>
    intro stack result hres hstk hn hclosed hle x
    rw [reachLoop]
    cases hlast : stack.getLast? with
    | none =>
      have hnil : stack = [] := List.getLast?_eq_none_iff.mp hlast
      subst hnil
      simp only
      constructor
      · exact hres x
      · intro hr
        induction hr with
        | single h1 =>
          rcases hn _ h1 with h | h
          · exact h
          · cases h
        | tail _ hbx ihr =>
          rcases hclosed _ ihr _ hbx with h | h
          · exact h
          · cases h
    | some current =>
      have hdec : stack.dropLast ++ [current] = stack :=
        List.dropLast_append_getLast? current hlast
      have hcur : current ∈ stack := by
        rw [← hdec]
        simp
      have hcurR : Reaches g n current := hstk current hcur
      have hcurN : current ∈ g.nodes := by
        obtain ⟨b, _, hbx⟩ := Relation.TransGen.tail'_iff.mp hcurR
        exact (hwf.2.2.2.2 b current hbx).2
      have hsplitmem : ∀ e, e ∈ stack ↔ e ∈ stack.dropLast ∨ e = current := by
        intro e
        rw [← hdec]
        simp
      simp only
      by_cases hmem : current ∈ result
      · rw [if_pos hmem]
        apply ihf stack.dropLast result hres
          (fun y hy => hstk y ((hsplitmem y).mpr (Or.inl hy)))
        · intro e he
          rcases hn e he with h | h
          · exact Or.inl h
          · rcases (hsplitmem e).mp h with h2 | h2
            · exact Or.inr h2
            · exact Or.inl (h2 ▸ hmem)
        · intro y hy e he
          rcases hclosed y hy e he with h | h
          · exact Or.inl h
          · rcases (hsplitmem e).mp h with h2 | h2
            · exact Or.inr h2
            · exact Or.inl (h2 ▸ hmem)
        · have : stack.length = stack.dropLast.length + 1 := by
            rw [← hdec]
            simp
          omega
      · rw [if_neg hmem]
        have hins : result.insert current = current :: result :=
          List.insert_of_not_mem hmem
        apply ihf (stack.dropLast ++ g.edges current) (result.insert current)
        · intro y hy
          rw [hins] at hy
          rcases List.mem_cons.mp hy with h | h
          · exact h ▸ hcurR
          · exact hres y h
        · intro y hy
          rcases List.mem_append.mp hy with h | h
          · exact hstk y ((hsplitmem y).mpr (Or.inl h))
          · exact Relation.TransGen.tail hcurR h
        · intro e he
          rw [hins]
          rcases hn e he with h | h
          · exact Or.inl (List.mem_cons_of_mem _ h)
          · rcases (hsplitmem e).mp h with h2 | h2
            · exact Or.inr (List.mem_append_left _ h2)
            · exact Or.inl (h2 ▸ List.mem_cons_self _ _)
        · intro y hy e he
          rw [hins] at hy ⊢
          rcases List.mem_cons.mp hy with h | h
          · subst h
            exact Or.inr (List.mem_append_right _ he)
          · rcases hclosed y h e he with h2 | h2
            · exact Or.inl (List.mem_cons_of_mem _ h2)
            · rcases (hsplitmem e).mp h2 with h3 | h3
              · exact Or.inr (List.mem_append_left _ h3)
              · exact Or.inl (h3 ▸ List.mem_cons_self _ _)
        · have hsum := sum_filter_insert hwf.1 hcurN hmem
          have hlen : stack.length = stack.dropLast.length + 1 := by
            rw [← hdec]
            simp
          rw [List.length_append]
          omega

/-! ### Claim C9 -/

/-- C9 counterexample: on the two-node cycle `a → b → a`,
`get_all_dependencies a` contains the start node `a` itself, contradicting
the claim that the result always excludes the start node. -/
theorem C9_counterexample :
    "a" ∈ get_all_dependencies (add_edge (add_edge DependencyGraph.empty "a" "b") "b" "a")
      "a" := by
  decide

/-- C9 (amended): for every well-formed graph, `get_all_dependencies n` is
exactly the set of nodes reachable from `n` along one or more dependency
edges; it excludes `n` itself precisely when `n` does not lie on a cycle; and
`get_all_dependencies n ∪ {n}` is closed under direct dependencies. -/
theorem C9_get_all_dependencies (g : DependencyGraph) (hwf : WF g) :
    (∀ n x, x ∈ get_all_dependencies g n ↔ Reaches g n x) ∧
    (∀ n, ¬ Reaches g n n → n ∉ get_all_dependencies g n) ∧
    (∀ n x, (x ∈ get_all_dependencies g n ∨ x = n) → ∀ d ∈ g.edges x,
      d ∈ get_all_dependencies g n ∨ d = n) := by
  have hspec : ∀ n x, x ∈ get_all_dependencies g n ↔ Reaches g n x := by
    intro n x
    unfold get_all_dependencies
    apply reachLoop_spec hwf n
    · intro y hy
      cases hy
    · intro y hy
      exact Relation.TransGen.single hy
    · intro e he
      exact Or.inr he
    · intro y hy
      cases hy
    · have : g.nodes.filter (fun x => x ∉ ([] : List String)) = g.nodes := by
        simp
      rw [this]
  refine ⟨hspec, ?_, ?_⟩
  · intro n hn hmem
    exact hn ((hspec n n).mp hmem)
  · intro n x hx d hd
    left
    rw [hspec]
    rcases hx with h | h
    · exact Relation.TransGen.tail ((hspec n x).mp h) hd
    · subst h
      exact Relation.TransGen.single hd

/-- Witness for C9 at the concrete chain `b → a`. -/
theorem C9_get_all_dependencies_witness :
    (∀ n x, x ∈ get_all_dependencies (add_edge DependencyGraph.empty "b" "a") n ↔
      Reaches (add_edge DependencyGraph.empty "b" "a") n x) ∧
    (∀ n, ¬ Reaches (add_edge DependencyGraph.empty "b" "a") n n →
      n ∉ get_all_dependencies (add_edge DependencyGraph.empty "b" "a") n) ∧
    (∀ n x, (x ∈ get_all_dependencies (add_edge DependencyGraph.empty "b" "a") n ∨ x = n) →
      ∀ d ∈ (add_edge DependencyGraph.empty "b" "a").edges x,
        d ∈ get_all_dependencies (add_edge DependencyGraph.empty "b" "a") n ∨ d = n) :=
  C9_get_all_dependencies (add_edge DependencyGraph.empty "b" "a")
    (WF_add_edge WF_empty "b" "a")

/-! ### Correctness of the critical-path computation -/

/-- Effect of the inner relaxation loop of `find_critical_path` over a
dependent list not containing the processed node itself. -/
theorem relaxFold_spec (w : String → ℚ) (x : String) :
    ∀ (L : List String) (dist : String → ℚ) (pred : String → Option String), x ∉ L →
      (∀ m, dist m ≤ (L.foldl
        (fun (p : (String → ℚ) × (String → Option String)) (dependent : String) =>
          let new_distance := p.1 x + w x
          if new_distance > p.1 dependent then
            ((fun n => if n = dependent then new_distance else p.1 n),
             (fun n => if n = dependent then some x else p.2 n))
          else p) (dist, pred)).1 m) ∧
      (∀ m, m ∉ L → (L.foldl
        (fun (p : (String → ℚ) × (String → Option String)) (dependent : String) =>
          let new_distance := p.1 x + w x
          if new_distance > p.1 dependent then
            ((fun n => if n = dependent then new_distance else p.1 n),
             (fun n => if n = dependent then some x else p.2 n))
          else p) (dist, pred)).1 m = dist m ∧
        (L.foldl
        (fun (p : (String → ℚ) × (String → Option String)) (dependent : String) =>
          let new_distance := p.1 x + w x
          if new_distance > p.1 dependent then
            ((fun n => if n = dependent then new_distance else p.1 n),
             (fun n => if n = dependent then some x else p.2 n))
          else p) (dist, pred)).2 m = pred m) ∧
      (∀ d ∈ L, dist x + w x ≤ (L.foldl
        (fun (p : (String → ℚ) × (String → Option String)) (dependent : String) =>
          let new_distance := p.1 x + w x
          if new_distance > p.1 dependent then
            ((fun n => if n = dependent then new_distance else p.1 n),
             (fun n => if n = dependent then some x else p.2 n))
          else p) (dist, pred)).1 d) ∧
      (∀ m, ((L.foldl
        (fun (p : (String → ℚ) × (String → Option String)) (dependent : String) =>
          let new_distance := p.1 x + w x
          if new_distance > p.1 dependent then
            ((fun n => if n = dependent then new_distance else p.1 n),
             (fun n => if n = dependent then some x else p.2 n))
          else p) (dist, pred)).1 m = dist m ∧
        (L.foldl
        (fun (p : (String → ℚ) × (String → Option String)) (dependent : String) =>
          let new_distance := p.1 x + w x
          if new_distance > p.1 dependent then
            ((fun n => if n = dependent then new_distance else p.1 n),
             (fun n => if n = dependent then some x else p.2 n))
          else p) (dist, pred)).2 m = pred m) ∨
        ((L.foldl
        (fun (p : (String → ℚ) × (String → Option String)) (dependent : String) =>
          let new_distance := p.1 x + w x
          if new_distance > p.1 dependent then
            ((fun n => if n = dependent then new_distance else p.1 n),
             (fun n => if n = dependent then some x else p.2 n))
          else p) (dist, pred)).2 m = some x ∧
         (L.foldl
        (fun (p : (String → ℚ) × (String → Option String)) (dependent : String) =>
          let new_distance := p.1 x + w x
          if new_distance > p.1 dependent then
            ((fun n => if n = dependent then new_distance else p.1 n),
             (fun n => if n = dependent then some x else p.2 n))
          else p) (dist, pred)).1 m = dist x + w x)) := by
  intro L
  induction L with
  | nil =>
    intro dist pred _
    refine ⟨fun m => le_refl _, fun m _ => ⟨rfl, rfl⟩, fun d hd => absurd hd (by simp), ?_⟩
    intro m
    exact Or.inl ⟨rfl, rfl⟩
  | cons d L' ihL =>
    intro dist pred hx
    have hxd : x ≠ d := fun he => hx (he ▸ List.mem_cons_self d L')
    have hxL' : x ∉ L' := fun he => hx (List.mem_cons_of_mem d he)
    simp only [List.foldl_cons]
    split
    · rename_i hupd
      have hlt : dist d < dist x + w x := hupd
      obtain ⟨c2, c3, c4, c5⟩ := ihL (fun n => if n = d then dist x + w x else dist n)
        (fun n => if n = d then some x else pred n) hxL'
      have hd1x : (if x = d then dist x + w x else dist x) = dist x := if_neg hxd
      refine ⟨?_, ?_, ?_, ?_⟩
      · intro m
        refine le_trans ?_ (c2 m)
        by_cases hmd : m = d
        · subst hmd
          simp only [if_pos rfl]
          exact le_of_lt hlt
        · simp [hmd]
      · intro m hm
        have hmd : m ≠ d := fun he => hm (he ▸ List.mem_cons_self d L')
        have hmL' : m ∉ L' := fun he => hm (List.mem_cons_of_mem d he)
        obtain ⟨e1, e2⟩ := c3 m hmL'
        rw [e1, e2]
        simp [hmd]
      · intro z hz
        rcases List.mem_cons.mp hz with hzd | hzL
        · subst hzd
          have := c2 z
          rw [if_pos rfl] at this
          exact this
        · have := c4 z hzL
          simp only [hd1x] at this
          exact this
      · intro m
        rcases c5 m with ⟨e1, e2⟩ | ⟨e1, e2⟩
        · by_cases hmd : m = d
          · subst hmd
            right
            rw [e1, e2]
            simp
          · left
            rw [e1, e2]
            simp [hmd]
        · right
          refine ⟨e1, ?_⟩
          rw [e2]
          simp [hd1x]
    · rename_i hupd
      have hge : dist x + w x ≤ dist d := le_of_not_lt hupd
      obtain ⟨c2, c3, c4, c5⟩ := ihL dist pred hxL'
      refine ⟨c2, fun m hm => c3 m (fun he => hm (List.mem_cons_of_mem d he)), ?_, c5⟩
      intro z hz
      rcases List.mem_cons.mp hz with hzd | hzL
      · subst hzd
        exact le_trans hge (c2 z)
      · exact c4 z hzL

/-- The invariant of the outer relaxation loop: distances are non-negative,
every predecessor entry records a processed dependency realizing the current
distance, and processed nodes have propagated their distance to all their
dependents. -/
structure RelaxInv (g : DependencyGraph) (done : List String) (dist : String → ℚ)
    (pred : String → Option String) : Prop where
  nonneg : ∀ m, 0 ≤ dist m
  predOk : ∀ m, match pred m with
    | none => dist m = 0
    | some b => Edge g m b ∧ b ∈ done ∧ dist m = dist b + weightOf g b
  satur : ∀ a ∈ done, ∀ b, Edge g b a → dist a + weightOf g a ≤ dist b

/-- Members of a prefix of a topological order have all their dependencies in
that prefix. -/
theorem done_closed {g : DependencyGraph} {r done todo : List String} (hwf : WF g)
    (hr : topological_sort g = some r) (hsplit : r = done ++ todo) :
    ∀ a ∈ done, ∀ dep ∈ g.edges a, dep ∈ done := by
  obtain ⟨hnd, hperm, hord⟩ := topo_sound hwf hr
  intro a ha dep hdep
  obtain ⟨⟨i, hi⟩, hgi⟩ := List.mem_iff_get.mp ha
  have hir : i < r.length := by
    rw [hsplit, List.length_append]
    omega
  have hget : r.get ⟨i, hir⟩ = a := by
    subst hsplit
    simp only [List.get_eq_getElem]
    rw [List.getElem_append_left hi]
    simpa using hgi
  have htake := hord i hir dep (by rw [hget]; exact hdep)
  have hsub : r.take i ⊆ done := by
    rw [hsplit, List.take_append_of_le_length (Nat.le_of_lt hi)]
    exact List.take_subset i done
  exact hsub htake

/-- `relaxFold_spec` rephrased for `relaxDependents`. -/
theorem relaxDependents_spec (rev : String → List String) (w : String → ℚ) (x : String)
    (dist : String → ℚ) (pred : String → Option String) (hx : x ∉ rev x) :
    (∀ m, dist m ≤ (relaxDependents rev w x (dist, pred)).1 m) ∧
    (∀ m, m ∉ rev x → (relaxDependents rev w x (dist, pred)).1 m = dist m ∧
      (relaxDependents rev w x (dist, pred)).2 m = pred m) ∧
    (∀ d ∈ rev x, dist x + w x ≤ (relaxDependents rev w x (dist, pred)).1 d) ∧
    (∀ m, ((relaxDependents rev w x (dist, pred)).1 m = dist m ∧
        (relaxDependents rev w x (dist, pred)).2 m = pred m) ∨
      ((relaxDependents rev w x (dist, pred)).2 m = some x ∧
        (relaxDependents rev w x (dist, pred)).1 m = dist x + w x)) :=
  relaxFold_spec w x (rev x) dist pred hx

/-- The outer relaxation loop of `find_critical_path` preserves the
invariant along a topological order. -/
theorem relaxAll_inv {g : DependencyGraph} (hwf : WF g) (hac : Acyclic g)
    {r : List String} (hr : topological_sort g = some r) :
    ∀ (todo done : List String) (dist : String → ℚ) (pred : String → Option String),
      r = done ++ todo →
      RelaxInv g done dist pred →
      RelaxInv g r
        (relaxAll g.reverse_edges (weightOf g) todo (dist, pred)).1
        (relaxAll g.reverse_edges (weightOf g) todo (dist, pred)).2 := by
  intro todo
  induction todo with
  | nil =>
    intro done dist pred hsplit hinv
    have hde : r = done := by
      rw [hsplit, List.append_nil]
    subst hde
    exact hinv
  | cons x todo' ih =>
    intro done dist pred hsplit hinv
    have hstep : relaxAll g.reverse_edges (weightOf g) (x :: todo') (dist, pred)
        = relaxAll g.reverse_edges (weightOf g) todo'
            (relaxDependents g.reverse_edges (weightOf g) x (dist, pred)) := rfl
    rw [hstep]
    obtain ⟨hnd, hperm, hord⟩ := topo_sound hwf hr
    have hxdone : x ∉ done := by
      intro hxd
      rw [hsplit, List.nodup_append] at hnd
      exact hnd.2.2 hxd (List.mem_cons_self x todo')
    have hxe : x ∉ g.reverse_edges x := by
      intro hxx
      exact hac x (Relation.TransGen.single ((hwf.2.2.2.1 x x).mpr hxx))
    have hLdone : ∀ b ∈ g.reverse_edges x, b ∉ done := by
      intro b hb hbd
      have hEdge : x ∈ g.edges b := (hwf.2.2.2.1 b x).mpr hb
      exact hxdone (done_closed hwf hr hsplit b hbd x hEdge)
    obtain ⟨c2, c3, c4, c5⟩ :=
      relaxDependents_spec g.reverse_edges (weightOf g) x dist pred hxe
    have hq1x : (relaxDependents g.reverse_edges (weightOf g) x (dist, pred)).1 x = dist x :=
      (c3 x hxe).1
    have hinv' : RelaxInv g (done ++ [x])
        (relaxDependents g.reverse_edges (weightOf g) x (dist, pred)).1
        (relaxDependents g.reverse_edges (weightOf g) x (dist, pred)).2 := by
      refine ⟨?_, ?_, ?_⟩
      · intro m
        exact le_trans (hinv.nonneg m) (c2 m)
      · intro m
        rcases c5 m with ⟨e1, e2⟩ | ⟨e1, e2⟩
        · rw [e1, e2]
          have hold := hinv.predOk m
          cases hpm : pred m with
          | none =>
            rw [hpm] at hold
            exact hold
          | some b =>
            rw [hpm] at hold
            obtain ⟨hE, hbdone, hdm⟩ := hold
            have hbL : b ∉ g.reverse_edges x := fun hbL => hLdone b hbL hbdone
            refine ⟨hE, List.mem_append_left _ hbdone, ?_⟩
            rw [(c3 b hbL).1]
            exact hdm
        · rw [e1, e2]
          by_cases hmL : m ∈ g.reverse_edges x
          · have hE : Edge g m x := (hwf.2.2.2.1 m x).mpr hmL
            refine ⟨hE, by simp, ?_⟩
            rw [hq1x]
          · obtain ⟨f1, f2⟩ := c3 m hmL
            rw [e1] at f2
            have hold := hinv.predOk m
            rw [← f2] at hold
            obtain ⟨_, hxdone', _⟩ := hold
            exact absurd hxdone' hxdone
      · intro a ha b hE
        rcases List.mem_append.mp ha with hda | hxa
        · have haL : a ∉ g.reverse_edges x := fun haL => hLdone a haL hda
          rw [(c3 a haL).1]
          exact le_trans (hinv.satur a hda b hE) (c2 b)
        · rw [List.mem_singleton] at hxa
          subst hxa
          have hbL : b ∈ g.reverse_edges a := (hwf.2.2.2.1 b a).mp hE
          rw [hq1x]
          exact c4 b hbL
    exact ih (done ++ [x])
      (relaxDependents g.reverse_edges (weightOf g) x (dist, pred)).1
      (relaxDependents g.reverse_edges (weightOf g) x (dist, pred)).2
      (by rw [hsplit]; simp) hinv'

/-- Effect of the maximum-selection fold of `find_critical_path`: the running
maximum never decreases, the result is the initial accumulator or a scanned
node with its finish time, and every scanned node's finish time is bounded by
the result. -/
theorem pickFold_spec (dist w : String → ℚ) (l : List String) :
    ∀ acc : ℚ × Option String,
      acc.1 ≤ (l.foldl
        (fun (p : ℚ × Option String) (node : String) =>
          let node_distance := dist node + w node
          if node_distance > p.1 then (node_distance, some node) else p) acc).1 ∧
      ((l.foldl
        (fun (p : ℚ × Option String) (node : String) =>
          let node_distance := dist node + w node
          if node_distance > p.1 then (node_distance, some node) else p) acc) = acc ∨
        ∃ n ∈ l, (l.foldl
          (fun (p : ℚ × Option String) (node : String) =>
            let node_distance := dist node + w node
            if node_distance > p.1 then (node_distance, some node) else p) acc)
          = (dist n + w n, some n)) ∧
      (∀ n ∈ l, dist n + w n ≤ (l.foldl
        (fun (p : ℚ × Option String) (node : String) =>
          let node_distance := dist node + w node
          if node_distance > p.1 then (node_distance, some node) else p) acc).1) := by
  induction l with
  | nil =>
    intro acc
    refine ⟨le_refl _, Or.inl rfl, ?_⟩
    intro n hn
    cases hn
  | cons x xs ih =>
    intro acc
    simp only [List.foldl_cons]
    split
    next hgt =>
      obtain ⟨m1, c1, b1⟩ := ih (dist x + w x, some x)
      refine ⟨le_trans (le_of_lt hgt) m1, ?_, ?_⟩
      · rcases c1 with h | ⟨n, hn, he⟩
        · exact Or.inr ⟨x, List.mem_cons_self x xs, h⟩
        · exact Or.inr ⟨n, List.mem_cons_of_mem x hn, he⟩
      · intro n hn
        rcases List.mem_cons.mp hn with rfl | hn'
        · exact m1
        · exact b1 n hn'
    next hgt =>
      obtain ⟨m1, c1, b1⟩ := ih acc
      refine ⟨m1, ?_, ?_⟩
      · rcases c1 with h | ⟨n, hn, he⟩
        · exact Or.inl h
        · exact Or.inr ⟨n, List.mem_cons_of_mem x hn, he⟩
      · intro n hn
        rcases List.mem_cons.mp hn with rfl | hn'
        · exact le_trans (le_of_not_lt hgt) m1
        · exact b1 n hn'

/-- `pickFold_spec` at the initial accumulator `(0, none)` used by
`find_critical_path`. -/
theorem pickEnd_spec (dist w : String → ℚ) (nodes : List String) :
    0 ≤ (pickEnd dist w nodes).1 ∧
    (pickEnd dist w nodes = ((0 : ℚ), (none : Option String)) ∨
      ∃ n ∈ nodes, pickEnd dist w nodes = (dist n + w n, some n)) ∧
    (∀ n ∈ nodes, dist n + w n ≤ (pickEnd dist w nodes).1) :=
  pickFold_spec dist w nodes (0, none)

/-- `buildPath` only appends to its path accumulator. -/
theorem buildPath_append (pred : String → Option String) :
    ∀ (fuel : Nat) (cur : String) (path : List String),
      buildPath pred fuel cur path = path ++ buildPath pred fuel cur [] := by
  intro fuel
  induction fuel with
  | zero =>
    intro cur path
    simp [buildPath]
  | succ fuel ih =>
    intro cur path
    cases hp : pred cur with
    | none => simp [buildPath, hp]
    | some p =>
      simp only [buildPath, hp]
      rw [ih p (path ++ [cur]), ih p ([] ++ [cur])]
      simp

/-- Path reconstruction from the relaxation maps: starting at any node, the
predecessor chain yields an edge-connected path inside the graph whose weight
sum telescopes to the node's finish time. -/
theorem buildPath_spec {g : DependencyGraph} {r : List String} {dist : String → ℚ}
    {pred : String → Option String} (hwf : WF g) (hr : topological_sort g = some r)
    (hinv : RelaxInv g r dist pred) :
    ∀ (fuel : Nat) (cur : String), cur ∈ g.nodes → r.indexOf cur < fuel →
      ∃ t, buildPath pred fuel cur [] = cur :: t ∧
        List.Chain' (fun a b => Edge g a b) (cur :: t) ∧
        (∀ x ∈ cur :: t, x ∈ g.nodes) ∧
        sumW g (cur :: t) = dist cur + weightOf g cur := by
  intro fuel
  induction fuel with
  | zero =>
    intro cur _ h
    exact absurd h (Nat.not_lt_zero _)
  | succ fuel ih =>
    intro cur hcur hidx
    cases hp : pred cur with
    | none =>
      have h0 : dist cur = 0 := by
        have := hinv.predOk cur
        rw [hp] at this
        exact this
      refine ⟨[], by simp [buildPath, hp], by simp, ?_, by simp [sumW, h0]⟩
      intro x hx
      rw [List.mem_singleton] at hx
      subst hx
      exact hcur
    | some p =>
      have hpo := hinv.predOk cur
      rw [hp] at hpo
      obtain ⟨hE, hpr, hd⟩ := hpo
      have hpn : p ∈ g.nodes := (topo_sound hwf hr).2.1.mem_iff.mp hpr
      have hlt : r.indexOf p < r.indexOf cur := topo_indexOf_lt hwf hr cur p hE
      have hidx' : r.indexOf p < fuel := by omega
      obtain ⟨t, hbt, hch, hm, hs⟩ := ih p hpn hidx'
      refine ⟨p :: t, ?_, ?_, ?_, ?_⟩
      · rw [show buildPath pred (fuel+1) cur [] = buildPath pred fuel p [cur] by
          simp [buildPath, hp]]
        rw [buildPath_append pred fuel p [cur], hbt]
        rfl
      · rw [List.chain'_cons]
        exact ⟨hE, hch⟩
      · intro x hx
        rcases List.mem_cons.mp hx with rfl | hx'
        · exact hcur
        · exact hm x hx'
      · have hsw : sumW g (cur :: p :: t) = weightOf g cur + sumW g (p :: t) := by
          simp [sumW]
        rw [hsw, hs, hd]
        ring

/-- Weight-sum bound along an edge-connected forward path: saturation of the
relaxation maps bounds the sum by the first node's finish time. -/
theorem fwdpath_sum_le {g : DependencyGraph} {r : List String} {dist : String → ℚ}
    (hnn : ∀ m, 0 ≤ dist m)
    (hsat : ∀ a ∈ r, ∀ b, Edge g b a → dist a + weightOf g a ≤ dist b)
    (hmem : ∀ n ∈ g.nodes, n ∈ r) :
    ∀ (t : List String) (c : String), List.Chain' (fun a b => Edge g a b) (c :: t) →
      (∀ x ∈ c :: t, x ∈ g.nodes) → sumW g (c :: t) ≤ dist c + weightOf g c := by
  intro t
  induction t with
  | nil =>
    intro c _ _
    have := hnn c
    simp [sumW]
    linarith
  | cons d t' ih =>
    intro c hch hm
    rw [List.chain'_cons] at hch
    obtain ⟨hcd, hch'⟩ := hch
    have hd := ih d hch' (fun x hx => hm x (List.mem_cons_of_mem c hx))
    have hdr : d ∈ r := hmem d (hm d (List.mem_cons_of_mem c (List.mem_cons_self d t')))
    have hsd := hsat d hdr c hcd
    have hsw : sumW g (c :: d :: t') = weightOf g c + sumW g (d :: t') := by
      simp [sumW]
    rw [hsw]
    linarith

/-- Every dependency path's weight sum is bounded by any bound on all finish
times, under the saturation property of the relaxation maps. -/
theorem deppath_sum_le {g : DependencyGraph} {r : List String} {dist : String → ℚ}
    (hnn : ∀ m, 0 ≤ dist m)
    (hsat : ∀ a ∈ r, ∀ b, Edge g b a → dist a + weightOf g a ≤ dist b)
    (hmem : ∀ n ∈ g.nodes, n ∈ r) (bound : ℚ) (hb0 : 0 ≤ bound)
    (hbn : ∀ n ∈ g.nodes, dist n + weightOf g n ≤ bound) :
    ∀ q, IsDepPath g q → sumW g q ≤ bound := by
  intro q hq
  obtain ⟨hch, hm⟩ := hq
  have hch' : List.Chain' (fun a b => Edge g a b) q.reverse := by
    rw [List.chain'_reverse]
    exact hch
  have hsum : sumW g q = sumW g q.reverse := by
    simp only [sumW, List.map_reverse]
    exact (List.sum_reverse _).symm
  cases hqr : q.reverse with
  | nil =>
    have hq0 : q = [] := by
      simpa using congrArg List.reverse hqr
    rw [hq0]
    simpa [sumW] using hb0
  | cons c t =>
    rw [hqr] at hch'
    have hmems : ∀ x ∈ c :: t, x ∈ g.nodes := by
      intro x hx
      apply hm
      rw [← List.mem_reverse, hqr]
      exact hx
    have hle := fwdpath_sum_le hnn hsat hmem t c hch' hmems
    have hcb : dist c + weightOf g c ≤ bound :=
      hbn c (hmems c (List.mem_cons_self c t))
    rw [hsum, hqr]
    exact le_trans hle hcb

/-- The weight sum of a path is invariant under reversal. -/
theorem sumW_reverse (g : DependencyGraph) (l : List String) :
    sumW g l.reverse = sumW g l := by
  simp only [sumW, List.map_reverse]
  exact List.sum_reverse _

/-- A graph with empty adjacency everywhere is acyclic. -/
theorem acyclic_of_no_edges {g : DependencyGraph} (h : ∀ a, g.edges a = []) :
    Acyclic g := by
  intro n hn
  cases hn with
  | single he =>
    rw [Edge, h] at he
    exact absurd he (List.not_mem_nil _)
  | tail _ he =>
    rw [Edge, h] at he
    exact absurd he (List.not_mem_nil _)

/-- C3: on every well-formed acyclic graph none of whose node ids is the
empty string, `find_critical_path` returns a dependency path of the graph
whose node-weight sum equals the returned total, and no dependency path of
the graph has a strictly greater weight sum. -/
theorem C3_find_critical_path_correct {g : DependencyGraph} (hwf : WF g)
    (hac : Acyclic g) (hne : "" ∉ g.nodes) :
    IsDepPath g (find_critical_path g).1 ∧
    sumW g (find_critical_path g).1 = (find_critical_path g).2 ∧
    ∀ q, IsDepPath g q → sumW g q ≤ (find_critical_path g).2 := by
  have hdc : detect_cycle g = none := (detect_cycle_none_iff hwf).mpr hac
  obtain ⟨r, hr⟩ := topo_some_of_acyclic hwf hac
  obtain ⟨hnd, hperm, hord⟩ := topo_sound hwf hr
  cases r with
  | nil =>
    have hnodes : g.nodes = [] := hperm.symm.eq_nil
    have hfcp : find_critical_path g = ([], 0) := by
      simp only [find_critical_path, hdc, hr]
    rw [hfcp]
    refine ⟨⟨List.chain'_nil, by simp⟩, by simp [sumW], ?_⟩
    intro q hq
    obtain ⟨_, hm⟩ := hq
    cases q with
    | nil => simp [sumW]
    | cons c t =>
      have hcg := hm c (List.mem_cons_self c t)
      rw [hnodes] at hcg
      exact absurd hcg (List.not_mem_nil c)
  | cons t rest =>
    have hinv := relaxAll_inv hwf hac hr (t :: rest) [] (fun _ => 0) (fun _ => none) rfl
      ⟨fun m => le_refl 0, fun m => rfl, fun a ha => absurd ha (List.not_mem_nil a)⟩
    obtain ⟨hp0, hpc, hpb⟩ := pickEnd_spec
      (relaxAll g.reverse_edges (weightOf g) (t :: rest)
        ((fun _ => (0 : ℚ)), (fun _ => (none : Option String)))).1
      (weightOf g) g.nodes
    have hmem : ∀ n ∈ g.nodes, n ∈ t :: rest := fun n hn => hperm.mem_iff.mpr hn
    rcases hpc with hnone | ⟨e, he, hpe⟩
    · have hfcp : find_critical_path g = ([], 0) := by
        simp [find_critical_path, hdc, hr, hnone]
      rw [hfcp]
      refine ⟨⟨List.chain'_nil, by simp⟩, by simp [sumW], ?_⟩
      intro q hq
      refine deppath_sum_le hinv.nonneg hinv.satur hmem 0 (le_refl 0) ?_ q hq
      intro n hn
      have := hpb n hn
      rw [hnone] at this
      simpa using this
    · have her : e ∈ t :: rest := hmem e he
      have hidx : (t :: rest).indexOf e < g.nodes.length + 1 := by
        have h1 : (t :: rest).indexOf e < (t :: rest).length :=
          List.indexOf_lt_length.mpr her
        have h2 : (t :: rest).length = g.nodes.length := hperm.length_eq
        omega
      obtain ⟨tl, hbp, hch, hmems, hsum⟩ :=
        buildPath_spec hwf hr hinv (g.nodes.length + 1) e he hidx
      have hne' : ¬ e = "" := fun h => hne (h ▸ he)
      have hfcp : find_critical_path g
          = ((buildPath (relaxAll g.reverse_edges (weightOf g) (t :: rest)
                ((fun _ => (0 : ℚ)), (fun _ => (none : Option String)))).2
              (g.nodes.length + 1) e []).reverse,
             (relaxAll g.reverse_edges (weightOf g) (t :: rest)
                ((fun _ => (0 : ℚ)), (fun _ => (none : Option String)))).1 e
               + weightOf g e) := by
        simp [find_critical_path, hdc, hr, hpe, hne']
      rw [hfcp]
      have hbound : ∀ n ∈ g.nodes,
          (relaxAll g.reverse_edges (weightOf g) (t :: rest)
            ((fun _ => (0 : ℚ)), (fun _ => (none : Option String)))).1 n + weightOf g n
          ≤ (relaxAll g.reverse_edges (weightOf g) (t :: rest)
            ((fun _ => (0 : ℚ)), (fun _ => (none : Option String)))).1 e + weightOf g e := by
        intro n hn
        have := hpb n hn
        rw [hpe] at this
        simpa using this
      refine ⟨⟨?_, ?_⟩, ?_, ?_⟩
      · rw [hbp, List.chain'_reverse]
        exact hch
      · intro x hx
        rw [hbp, List.mem_reverse] at hx
        exact hmems x hx
      · rw [hbp, sumW_reverse, hsum]
      · intro q hq
        have h0e : (0 : ℚ) ≤ (relaxAll g.reverse_edges (weightOf g) (t :: rest)
            ((fun _ => (0 : ℚ)), (fun _ => (none : Option String)))).1 e + weightOf g e := by
          have := hp0
          rw [hpe] at this
          simpa using this
        exact deppath_sum_le hinv.nonneg hinv.satur hmem _ h0e hbound q hq

/-- C3 counterexample: the graph with the single node `""` of weight 5 is
acyclic and carries the dependency path `[""]` of weight 5, yet
`find_critical_path` returns `([], 0)` because the empty-string end node is
falsy in Python, so the returned total is not maximal. -/
theorem C3_counterexample :
    Acyclic (add_node DependencyGraph.empty "" 5) ∧
    IsDepPath (add_node DependencyGraph.empty "" 5) [""] ∧
    sumW (add_node DependencyGraph.empty "" 5) [""] = 5 ∧
    find_critical_path (add_node DependencyGraph.empty "" 5) = ([], 0) ∧
    ¬ (sumW (add_node DependencyGraph.empty "" 5) [""]
        ≤ (find_critical_path (add_node DependencyGraph.empty "" 5)).2) := by
  have hac : Acyclic (add_node DependencyGraph.empty "" 5) :=
    acyclic_of_no_edges (fun a => rfl)
  have hw : weightOf (add_node DependencyGraph.empty "" 5) "" = 5 := by decide
  have hsw : sumW (add_node DependencyGraph.empty "" 5) [""] = 5 := by
    simp [sumW, hw]
  have h1 : detect_cycle (add_node DependencyGraph.empty "" 5) = none := by decide
  have h2 : topological_sort (add_node DependencyGraph.empty "" 5) = some [""] := by
    decide
  have h3 : (add_node DependencyGraph.empty "" 5).nodes = [""] := by decide
  have e1 : (add_node DependencyGraph.empty "" 5).reverse_edges "" = [] := by decide
  have hfcp : find_critical_path (add_node DependencyGraph.empty "" 5) = ([], 0) := by
    simp only [find_critical_path, h1, h2, h3]
    norm_num +decide [relaxAll, relaxDependents, pickEnd, buildPath, e1, hw]
  refine ⟨hac, ⟨List.chain'_singleton "", by decide⟩, hsw, hfcp, ?_⟩
  rw [hsw, hfcp]
  norm_num

/-- Witness for C3 at the concrete single-node graph `a` of weight 1. -/
theorem C3_find_critical_path_correct_witness :
    IsDepPath (add_node DependencyGraph.empty "a" 1)
      (find_critical_path (add_node DependencyGraph.empty "a" 1)).1 ∧
    sumW (add_node DependencyGraph.empty "a" 1)
      (find_critical_path (add_node DependencyGraph.empty "a" 1)).1
      = (find_critical_path (add_node DependencyGraph.empty "a" 1)).2 ∧
    ∀ q, IsDepPath (add_node DependencyGraph.empty "a" 1) q →
      sumW (add_node DependencyGraph.empty "a" 1) q
        ≤ (find_critical_path (add_node DependencyGraph.empty "a" 1)).2 :=
  C3_find_critical_path_correct (WF_add_node WF_empty "a" 1)
    (acyclic_of_topo_some (WF_add_node WF_empty "a" 1)
      (show topological_sort (add_node DependencyGraph.empty "a" 1) = some ["a"] by decide))
    (by decide)

/-! ### Claim C7: single-node graphs -/

/-- C7 (amended): on the single-node graph with node `n` and weight `w`,
`topological_sort` always returns `[n]`, and `find_critical_path` returns
`([n], w)` exactly when `n` is not the falsy empty string and `w` is
strictly positive; a non-positive weight (in particular the legal weight
zero) or the empty-string node id makes it fall through the truthiness
checks and return `([], 0)` instead. -/
theorem C7_single_node_behavior (n : String) (w : ℚ) :
    topological_sort (add_node DependencyGraph.empty n w) = some [n] ∧
    (n ≠ "" → 0 < w →
      find_critical_path (add_node DependencyGraph.empty n w) = ([n], w)) ∧
    (w ≤ 0 → find_critical_path (add_node DependencyGraph.empty n w) = ([], 0)) ∧
    (n = "" → find_critical_path (add_node DependencyGraph.empty n w) = ([], 0)) := by
  have hnodes : (add_node DependencyGraph.empty n w).nodes = [n] := by
    simp [add_node, DependencyGraph.empty]
  have hedges : ∀ m, (add_node DependencyGraph.empty n w).edges m = [] := fun m => rfl
  have hrev : ∀ m, (add_node DependencyGraph.empty n w).reverse_edges m = [] :=
    fun m => rfl
  have hw1 : weightOf (add_node DependencyGraph.empty n w) n = w := by
    simp [weightOf, add_node]
  have htopo : topological_sort (add_node DependencyGraph.empty n w) = some [n] := by
    simp [topological_sort, hnodes, hedges, hrev, kahnLoop, kahnStep]
  have hdc : detect_cycle (add_node DependencyGraph.empty n w) = none := by
    simp [detect_cycle, detectLoop, dfsVisit, hnodes, hedges]
  refine ⟨htopo, ?_, ?_, ?_⟩
  · intro hne hw
    simp [find_critical_path, hdc, htopo, relaxAll, relaxDependents, pickEnd,
      buildPath, hnodes, hrev, hw1, hw, hne]
  · intro hw
    have hgt : ¬ (0 : ℚ) < w := not_lt.mpr hw
    simp [find_critical_path, hdc, htopo, relaxAll, relaxDependents, pickEnd,
      buildPath, hnodes, hrev, hw1, hgt]
  · intro hne
    subst hne
    by_cases hgt : (0 : ℚ) < w
    · simp [find_critical_path, hdc, htopo, relaxAll, relaxDependents, pickEnd,
        buildPath, hnodes, hrev, hw1, hgt]
    · simp [find_critical_path, hdc, htopo, relaxAll, relaxDependents, pickEnd,
        buildPath, hnodes, hrev, hw1, hgt]

/-- C7 counterexample: the zero-weight single node `a` is sorted as `["a"]`,
but `find_critical_path` returns `([], 0)`, not `(["a"], 0)`: the zero
maximum leaves the end node unset. -/
theorem C7_counterexample :
    weightOf (add_node DependencyGraph.empty "a" 0) "a" = 0 ∧
    topological_sort (add_node DependencyGraph.empty "a" 0) = some ["a"] ∧
    find_critical_path (add_node DependencyGraph.empty "a" 0) = ([], 0) ∧
    (([], (0 : ℚ)) : List String × ℚ) ≠ ((["a"], (0 : ℚ)) : List String × ℚ) := by
  have h1 : detect_cycle (add_node DependencyGraph.empty "a" 0) = none := by decide
  have h2 : topological_sort (add_node DependencyGraph.empty "a" 0) = some ["a"] := by
    decide
  have h3 : (add_node DependencyGraph.empty "a" 0).nodes = ["a"] := by decide
  have e1 : (add_node DependencyGraph.empty "a" 0).reverse_edges "a" = [] := by decide
  have w1 : weightOf (add_node DependencyGraph.empty "a" 0) "a" = 0 := by decide
  refine ⟨w1, h2, ?_, by decide⟩
  simp only [find_critical_path, h1, h2, h3]
  norm_num +decide [relaxAll, relaxDependents, pickEnd, buildPath, e1, w1]

/-- Witness for C7 at node `a` with weight 1. -/
theorem C7_single_node_behavior_witness :
    topological_sort (add_node DependencyGraph.empty "a" 1) = some ["a"] ∧
    find_critical_path (add_node DependencyGraph.empty "a" 1) = (["a"], 1) :=
  ⟨(C7_single_node_behavior "a" 1).1,
   (C7_single_node_behavior "a" 1).2.1 (by decide) (by norm_num)⟩

/-! ### Row-lookup lemmas for the task store -/

/-- Status lookup through a key-preserving row map. -/
theorem lookupStatus_map {f : String × String → String × String}
    (hf : ∀ p, (f p).1 = p.1) (tasks : List (String × String)) (id : String) :
    lookupStatus (tasks.map f) id
      = (tasks.find? (fun p => p.1 = id)).map (fun p => (f p).2) := by
  induction tasks with
  | nil => rfl
  | cons p ps ih =>
    by_cases hp : p.1 = id
    · simp only [lookupStatus, List.map_cons]
      rw [List.find?_cons_of_pos _ (by simp [hf, hp]),
        List.find?_cons_of_pos _ (by simp [hp])]
      simp
    · simp only [lookupStatus, List.map_cons]
      rw [List.find?_cons_of_neg _ (by simp [hf, hp]),
        List.find?_cons_of_neg _ (by simp [hp])]
      simp only [lookupStatus] at ih
      exact ih

/-- Effect of the completion `UPDATE` on a status lookup. -/
theorem lookupStatus_setCompleted (tasks : List (String × String)) (X id : String) :
    lookupStatus (setCompleted tasks X) id
      = (lookupStatus tasks id).map (fun st => if id = X then "completed" else st) := by
  have hf : ∀ p : String × String,
      ((if p.1 = X then (p.1, "completed") else p) : String × String).1 = p.1 := by
    intro p
    split <;> rfl
  rw [show setCompleted tasks X
      = tasks.map (fun p => if p.1 = X then (p.1, "completed") else p) from rfl]
  rw [lookupStatus_map hf]
  cases hfind : tasks.find? (fun p => p.1 = id) with
  | none => simp [lookupStatus, hfind]
  | some p =>
    have hp1 : p.1 = id := by
      have hsome := List.find?_some hfind
      simpa using hsome
    simp only [lookupStatus, hfind, Option.map_some']
    rw [hp1]
    split <;> rfl

/-- Completing `X` does not change the looked-up status of other ids. -/
theorem lookupStatus_setCompleted_ne {id X : String} (h : id ≠ X)
    (tasks : List (String × String)) :
    lookupStatus (setCompleted tasks X) id = lookupStatus tasks id := by
  rw [lookupStatus_setCompleted]
  cases lookupStatus tasks id <;> simp [h]

/-- Completing `X` preserves which ids have a task row. -/
theorem lookupStatus_setCompleted_isSome (tasks : List (String × String))
    (X id : String) :
    (lookupStatus (setCompleted tasks X) id).isSome
      = (lookupStatus tasks id).isSome := by
  rw [lookupStatus_setCompleted]
  cases lookupStatus tasks X <;> cases lookupStatus tasks id <;> rfl

/-- Completing an existing task makes its looked-up status `completed`. -/
theorem lookupStatus_setCompleted_self {tasks : List (String × String)}
    {X st : String} (h : lookupStatus tasks X = some st) :
    lookupStatus (setCompleted tasks X) X = some "completed" := by
  rw [lookupStatus_setCompleted, h]
  simp

/-- Readable characterisation of the `NOT EXISTS` subquery: it accepts `t`
exactly when every dependency of `t` other than `X` that resolves to an
existing task row resolves to a completed one (dangling ids impose no
constraint, the join drops them). -/
theorem noOther_iff (tasks deps : List (String × String)) (t X : String) :
    noOtherIncompleteDep tasks deps t X = true ↔
      ∀ d ∈ deps, d.1 = t → d.2 ≠ X →
        ∀ st, lookupStatus tasks d.2 = some st → st = "completed" := by
  constructor
  · intro h d hd h1 h2 st hst
    have hany : deps.any (fun d2 =>
        d2.1 == t && d2.2 != X &&
          (match lookupStatus tasks d2.2 with
           | some st => st != "completed"
           | none => false)) = false := by
      rwa [noOtherIncompleteDep, Bool.not_eq_true'] at h
    rw [List.any_eq_false] at hany
    have hthis := hany d hd
    by_contra hne
    apply hthis
    rw [hst]
    simp [h1, h2, hne]
  · intro h
    rw [noOtherIncompleteDep, Bool.not_eq_true', List.any_eq_false]
    intro d hd hcon
    rw [Bool.and_eq_true, Bool.and_eq_true] at hcon
    obtain ⟨⟨e1, e2⟩, e3⟩ := hcon
    have hd1 : d.1 = t := by simpa using e1
    have hd2 : d.2 ≠ X := by simpa using e2
    cases hls : lookupStatus tasks d.2 with
    | none =>
      rw [hls] at e3
      cases e3
    | some st =>
      rw [hls] at e3
      have hne : st ≠ "completed" := by simpa using e3
      exact hne (h d hd hd1 hd2 st hls)

/-- Status lookup after `complete s X`: the looked-up status is the
post-`UPDATE` status, flipped from `blocked` to `pending` exactly when the
unblock query accepts the id. -/
theorem complete_lookup (s : TaskStore) (X id : String) :
    lookupStatus (complete s X).tasks id
      = (lookupStatus (setCompleted s.tasks X) id).map
          (fun st => if st == "blocked"
              && s.deps.any (fun d => d.1 == id && d.2 == X
                   && noOtherIncompleteDep (setCompleted s.tasks X) s.deps d.1 X)
            then "pending" else st) := by
  have hf : ∀ p : String × String,
      ((if p.2 == "blocked"
           && s.deps.any (fun d => d.1 == p.1 && d.2 == X
                && noOtherIncompleteDep (setCompleted s.tasks X) s.deps d.1 X)
         then (p.1, "pending") else p) : String × String).1 = p.1 := by
    intro p
    split <;> rfl
  rw [show (complete s X).tasks
      = (setCompleted s.tasks X).map (fun p =>
          if p.2 == "blocked"
             && s.deps.any (fun d => d.1 == p.1 && d.2 == X
                  && noOtherIncompleteDep (setCompleted s.tasks X) s.deps d.1 X)
          then (p.1, "pending") else p) from rfl]
  rw [lookupStatus_map hf]
  cases hfind : (setCompleted s.tasks X).find? (fun p => p.1 = id) with
  | none => simp [lookupStatus, hfind]
  | some p =>
    have hp1 : p.1 = id := by
      have hsome := List.find?_some hfind
      simpa using hsome
    simp only [lookupStatus, hfind, Option.map_some']
    rw [hp1]
    by_cases hc : (p.2 == "blocked"
        && s.deps.any (fun d => d.1 == id && d.2 == X
             && noOtherIncompleteDep (setCompleted s.tasks X) s.deps d.1 X)) = true
    · rw [if_pos hc, if_pos hc]
    · rw [if_neg hc, if_neg hc]

/-! ### Claim C4: unblocking requires completed dependencies -/

/-- C4: in a task store whose dependency ids all resolve to existing task
rows, whenever a completion event flips a blocked task `t` to `pending`,
every direct dependency of `t` has status `completed` afterwards; and in the
concrete scenario where `y` depends on both `x` and `z`, completing `x`
leaves `y` blocked with no notification, and completing `z` then flips `y`
to `pending` with exactly one unblock notification. -/
theorem C4_unblock_requires_completed_deps (s : TaskStore) (t X : String)
    (hint : ∀ d ∈ s.deps, (lookupStatus s.tasks d.2).isSome = true)
    (hblocked : lookupStatus s.tasks t = some "blocked")
    (hpending : lookupStatus (complete s X).tasks t = some "pending") :
    (∀ d ∈ s.deps, d.1 = t →
      lookupStatus (complete s X).tasks d.2 = some "completed") ∧
    (lookupStatus (complete (TaskStore.mk
        [("x", "pending"), ("y", "blocked"), ("z", "pending")]
        [("y", "x"), ("y", "z")] []) "x").tasks "y" = some "blocked" ∧
      (complete (TaskStore.mk
        [("x", "pending"), ("y", "blocked"), ("z", "pending")]
        [("y", "x"), ("y", "z")] []) "x").notifications = [] ∧
      lookupStatus (complete (complete (TaskStore.mk
        [("x", "pending"), ("y", "blocked"), ("z", "pending")]
        [("y", "x"), ("y", "z")] []) "x") "z").tasks "y" = some "pending" ∧
      (complete (complete (TaskStore.mk
        [("x", "pending"), ("y", "blocked"), ("z", "pending")]
        [("y", "x"), ("y", "z")] []) "x") "z").notifications
        = [("y", "unblocked")]) := by
  refine ⟨?_, by decide, by decide, by decide, by decide⟩
  rw [complete_lookup] at hpending
  by_cases htX : t = X
  · subst htX
    rw [lookupStatus_setCompleted_self hblocked, Option.map_some'] at hpending
    have hb : (("completed" == "blocked") : Bool) = false := by decide
    simp [hb] at hpending
  · rw [lookupStatus_setCompleted_ne htX, hblocked, Option.map_some'] at hpending
    have hbb : (("blocked" == "blocked") : Bool) = true := by decide
    simp only [hbb, Bool.true_and] at hpending
    by_cases hany : s.deps.any (fun d => d.1 == t && d.2 == X
        && noOtherIncompleteDep (setCompleted s.tasks X) s.deps d.1 X) = true
    · rw [List.any_eq_true] at hany
      obtain ⟨d0, hd0, hc0⟩ := hany
      rw [Bool.and_eq_true, Bool.and_eq_true] at hc0
      obtain ⟨⟨e1, _⟩, e3⟩ := hc0
      have hd01 : d0.1 = t := by simpa using e1
      rw [hd01] at e3
      intro d hd hdt
      by_cases hdX : d.2 = X
      · have hex := hint d hd
        rw [hdX] at hex
        cases hls : lookupStatus s.tasks X with
        | none =>
          rw [hls] at hex
          cases hex
        | some st =>
          have h1 : lookupStatus (setCompleted s.tasks X) X = some "completed" :=
            lookupStatus_setCompleted_self hls
          rw [complete_lookup, hdX, h1, Option.map_some']
          have hb : (("completed" == "blocked") : Bool) = false := by decide
          simp [hb]
      · have hno := (noOther_iff (setCompleted s.tasks X) s.deps t X).mp e3
        have hex := hint d hd
        have hex1 : (lookupStatus (setCompleted s.tasks X) d.2).isSome = true := by
          rw [lookupStatus_setCompleted_isSome]
          exact hex
        cases hls : lookupStatus (setCompleted s.tasks X) d.2 with
        | none =>
          rw [hls] at hex1
          cases hex1
        | some st =>
          have hst : st = "completed" := hno d hd hdt hdX st hls
          rw [complete_lookup, hls, Option.map_some', hst]
          have hb : (("completed" == "blocked") : Bool) = false := by decide
          simp [hb]
    · have hf : s.deps.any (fun d => d.1 == t && d.2 == X
          && noOtherIncompleteDep (setCompleted s.tasks X) s.deps d.1 X) = false :=
        Bool.eq_false_iff.mpr hany
      rw [hf] at hpending
      exact absurd hpending (by decide)

/-- Witness for C4 at the one-dependency store where `y` is blocked on `x`. -/
theorem C4_unblock_requires_completed_deps_witness :
    (∀ d ∈ (TaskStore.mk [("x", "pending"), ("y", "blocked")] [("y", "x")] []).deps,
      d.1 = "y" →
      lookupStatus (complete (TaskStore.mk
        [("x", "pending"), ("y", "blocked")] [("y", "x")] []) "x").tasks d.2
        = some "completed") ∧
    (lookupStatus (complete (TaskStore.mk
        [("x", "pending"), ("y", "blocked"), ("z", "pending")]
        [("y", "x"), ("y", "z")] []) "x").tasks "y" = some "blocked" ∧
      (complete (TaskStore.mk
        [("x", "pending"), ("y", "blocked"), ("z", "pending")]
        [("y", "x"), ("y", "z")] []) "x").notifications = [] ∧
      lookupStatus (complete (complete (TaskStore.mk
        [("x", "pending"), ("y", "blocked"), ("z", "pending")]
        [("y", "x"), ("y", "z")] []) "x") "z").tasks "y" = some "pending" ∧
      (complete (complete (TaskStore.mk
        [("x", "pending"), ("y", "blocked"), ("z", "pending")]
        [("y", "x"), ("y", "z")] []) "x") "z").notifications
        = [("y", "unblocked")]) :=
  C4_unblock_requires_completed_deps
    (TaskStore.mk [("x", "pending"), ("y", "blocked")] [("y", "x")] []) "y" "x"
    (by decide) (by decide) (by decide)

/-! ### Claim C6: dangling dependency ids -/

/-- C6 counterexample: `y` is blocked with its only dependency row pointing
at the nonexistent id `w`; completing `w` nevertheless flips `y` to
`pending`, because the unblock query's inner join drops the dangling
dependency row instead of treating it as blocking forever. -/
theorem C6_counterexample :
    lookupStatus (TaskStore.mk [("y", "blocked")] [("y", "w")] []).tasks "w" = none ∧
    ("y", "w") ∈ (TaskStore.mk [("y", "blocked")] [("y", "w")] []).deps ∧
    lookupStatus (TaskStore.mk [("y", "blocked")] [("y", "w")] []).tasks "y"
      = some "blocked" ∧
    lookupStatus (complete (TaskStore.mk [("y", "blocked")] [("y", "w")] []) "w").tasks
      "y" = some "pending" := by
  decide

/-- C6 (amended): characterisation of the unblock step.  Completing `X`
flips a blocked task `t` (`t ≠ X`) to `pending` exactly when some dependency
row `(t, X)` exists and every other dependency of `t` that still resolves to
an existing task row is completed; dependency ids without a task row are
dropped by the query's inner join and never block. -/
theorem C6_dangling_dependency_vanishes (s : TaskStore) (t X : String)
    (hblocked : lookupStatus s.tasks t = some "blocked") (htX : t ≠ X) :
    lookupStatus (complete s X).tasks t = some "pending" ↔
      ((∃ d ∈ s.deps, d.1 = t ∧ d.2 = X) ∧
       ∀ d ∈ s.deps, d.1 = t → d.2 ≠ X →
         ∀ st, lookupStatus (setCompleted s.tasks X) d.2 = some st →
           st = "completed") := by
  rw [complete_lookup, lookupStatus_setCompleted_ne htX, hblocked, Option.map_some']
  have hbb : (("blocked" == "blocked") : Bool) = true := by decide
  simp only [hbb, Bool.true_and]
  constructor
  · intro h
    by_cases hany : s.deps.any (fun d => d.1 == t && d.2 == X
        && noOtherIncompleteDep (setCompleted s.tasks X) s.deps d.1 X) = true
    · rw [List.any_eq_true] at hany
      obtain ⟨d0, hd0, hc0⟩ := hany
      rw [Bool.and_eq_true, Bool.and_eq_true] at hc0
      obtain ⟨⟨e1, e2⟩, e3⟩ := hc0
      have hd01 : d0.1 = t := by simpa using e1
      have hd02 : d0.2 = X := by simpa using e2
      rw [hd01] at e3
      exact ⟨⟨d0, hd0, hd01, hd02⟩,
        (noOther_iff (setCompleted s.tasks X) s.deps t X).mp e3⟩
    · have hf : s.deps.any (fun d => d.1 == t && d.2 == X
          && noOtherIncompleteDep (setCompleted s.tasks X) s.deps d.1 X) = false :=
        Bool.eq_false_iff.mpr hany
      rw [hf] at h
      exact absurd h (by decide)
  · rintro ⟨⟨d0, hd0, hd01, hd02⟩, hall⟩
    have hno : noOtherIncompleteDep (setCompleted s.tasks X) s.deps t X = true :=
      (noOther_iff (setCompleted s.tasks X) s.deps t X).mpr hall
    have hany : s.deps.any (fun d => d.1 == t && d.2 == X
        && noOtherIncompleteDep (setCompleted s.tasks X) s.deps d.1 X) = true := by
      rw [List.any_eq_true]
      refine ⟨d0, hd0, ?_⟩
      rw [Bool.and_eq_true, Bool.and_eq_true]
      refine ⟨⟨by simpa using hd01, by simpa using hd02⟩, ?_⟩
      rw [hd01]
      exact hno
    rw [hany]
    rfl

/-- Witness for C6 at the dangling-dependency store. -/
theorem C6_dangling_dependency_vanishes_witness :
    lookupStatus (complete (TaskStore.mk [("y", "blocked")] [("y", "w")] []) "w").tasks
      "y" = some "pending" ↔
      ((∃ d ∈ (TaskStore.mk [("y", "blocked")] [("y", "w")] []).deps,
          d.1 = "y" ∧ d.2 = "w") ∧
       ∀ d ∈ (TaskStore.mk [("y", "blocked")] [("y", "w")] []).deps,
         d.1 = "y" → d.2 ≠ "w" →
         ∀ st, lookupStatus (setCompleted (TaskStore.mk
             [("y", "blocked")] [("y", "w")] []).tasks "w") d.2 = some st →
           st = "completed") :=
  C6_dangling_dependency_vanishes (TaskStore.mk [("y", "blocked")] [("y", "w")] [])
    "y" "w" (by decide) (by decide)

end TaskOrch
